import Mathlib

/-!
# clazy: `FixItUtils` (source ranges and fix-it hints) and the check registry

A shallow embedding of `src/FixItUtils.cpp`, and of the selection functions that
`src/checkmanager.h` declares.

* A `clang::SourceLocation` is its raw 32-bit encoding; the encoding `0` is the
  invalid location (`SourceLocation()`, written `{}` in the source).
* The host frontend (lexer, source manager) is not part of the repository: what the
  code asks of it is collected in `CompilerInstance` / `SourceManager`, records of
  functions that every definition below takes as a parameter.
* A `clang::FixItHint` is one of the values its factory functions build:
  the default-constructed hint `{}` (`FixItHint.null`), `CreateInsertion`,
  `CreateRemoval`, `CreateReplacement`. A hint is a no-op hint (`FixItHint.isNull`) when
  the range it edits is invalid.
* A pointer may be null (`Stmt.null`, or `none` for the other node types). Where the
  source dereferences a pointer without a null test, the embedding answers `none` for the
  null pointer: the call has no defined result.
-/

namespace FixItUtils

/-! ## Source positions and ranges -/

/-- A source position, `clang::SourceLocation`: the raw encoding, `0` when there is no location. -/
structure SourceLocation where
  raw : Nat
deriving DecidableEq, Repr

/-- The default-constructed location, `SourceLocation()`. -/
def SourceLocation.invalid : SourceLocation := ⟨0⟩

/-- Validity test, `SourceLocation::isValid`: the encoding is not 0. -/
def SourceLocation.isValid (l : SourceLocation) : Bool := l.raw != 0

/-- Negated validity test, `SourceLocation::isInvalid`. -/
def SourceLocation.isInvalid (l : SourceLocation) : Bool := l.raw == 0

/-- Raw encoding, `SourceLocation::getRawEncoding`. -/
def SourceLocation.getRawEncoding (l : SourceLocation) : Nat := l.raw

/-- Conversion of a `size_t`/`unsigned` value to `int` (32 bits, two's complement). -/
def toInt32 (n : Nat) : Int :=
  if n % 2 ^ 32 < 2 ^ 31 then ((n % 2 ^ 32 : Nat) : Int) else ((n % 2 ^ 32 : Nat) : Int) - 2 ^ 32

/-- Subtraction on `size_t` (64 bits, wrapping). -/
def sizeSub (a b : Nat) : Nat := (a % 2 ^ 64 + 2 ^ 64 - b % 2 ^ 64) % 2 ^ 64

/-- Position arithmetic, `SourceLocation::getLocWithOffset(int)`: `ID + Offset` on the
unsigned 32-bit encoding. -/
def SourceLocation.getLocWithOffset (l : SourceLocation) (offset : Int) : SourceLocation :=
  ⟨(((l.raw : Int) + offset) % 2 ^ 32).toNat⟩

/-- A pair of positions, `clang::SourceRange`. -/
structure SourceRange where
  b : SourceLocation
  e : SourceLocation
deriving DecidableEq, Repr

/-- The default-constructed range `{}`: both ends invalid. -/
def SourceRange.invalid : SourceRange := ⟨SourceLocation.invalid, SourceLocation.invalid⟩

/-- Start of a range, `SourceRange::getBegin`. -/
def SourceRange.getBegin (r : SourceRange) : SourceLocation := r.b

/-- End of a range, `SourceRange::getEnd`. -/
def SourceRange.getEnd (r : SourceRange) : SourceLocation := r.e

/-- Validity of a range, `SourceRange::isValid`: both ends are valid. -/
def SourceRange.isValid (r : SourceRange) : Bool := r.b.isValid && r.e.isValid

/-- Negated validity of a range, `SourceRange::isInvalid`. -/
def SourceRange.isInvalid (r : SourceRange) : Bool := !r.isValid

/-! ## Fix-it hints -/

/-- One text edit, `clang::FixItHint`, by the factory that built it. -/
inductive FixItHint where
  | null : FixItHint
  | insertion (at_ : SourceLocation) (code : String) : FixItHint
  | removal (range : SourceRange) : FixItHint
  | replacement (range : SourceRange) (code : String) : FixItHint
deriving DecidableEq, Repr

/-! ## The host frontend -/

/-- Kinds of raw tokens, the part of `tok::TokenKind` used here. -/
inductive TokenKind where
  | eof | unknown | identifier | string_literal | l_paren | r_paren | period | comma | semi
deriving DecidableEq, Repr

/-- What the code asks of `clang::SourceManager`. -/
structure SourceManager where
  isBeforeInSLocAddrSpace : SourceLocation → SourceLocation → Bool

/-- What the code asks of the `CompilerInstance` (its source manager and the lexer run
with its language options): `Lexer::getLocForEndOfToken(loc, offset, ..)` and the kind of
the token `Lexer::getRawToken(loc, ..)` reads. -/
structure CompilerInstance where
  sm : SourceManager
  getLocForEndOfToken : SourceLocation → Int → SourceLocation
  getRawTokenKind : SourceLocation → TokenKind

/-! ## AST nodes -/

/-- A `Stmt *`: the null pointer, or a node with its start and end position and its
children (`Stmt::children()`, which may hold null pointers). -/
inductive Stmt where
  | null : Stmt
  | node (locStart locEnd : SourceLocation) (children : List Stmt) : Stmt
deriving Repr

/-- A string literal node, `clang::StringLiteral`: its own start and the positions of the
tokens it was concatenated from. -/
structure StringLiteral where
  locStart : SourceLocation
  tokLocs : List SourceLocation
deriving DecidableEq, Repr

/-- Number of concatenated tokens, `StringLiteral::getNumConcatenated`, as stored in the `int`. -/
def StringLiteral.getNumConcatenated (lt : StringLiteral) : Int := (lt.tokLocs.length : Int)

/-- Position of token `tokNum`, `StringLiteral::getStrTokenLoc`; `none` when the index is
outside the literal (the read has no defined result). -/
def StringLiteral.getStrTokenLoc (lt : StringLiteral) (tokNum : Int) : Option SourceLocation :=
  if 0 ≤ tokNum then lt.tokLocs.get? tokNum.toNat else none

/-- A member call node, `clang::CXXMemberCallExpr`, with its receiver
(`getImplicitObjectArgument()`, possibly null). -/
structure CXXMemberCallExpr where
  locStart : SourceLocation
  locEnd : SourceLocation
  implicitObjectArgument : Stmt

/-! ## `FixItUtils.cpp` -/

/-- `FixItUtils::createReplacement` (lines 36-43). -/
def createReplacement (range : SourceRange) (replacement : String) : FixItHint :=
  if range.getBegin.isInvalid then FixItHint.null
  else FixItHint.replacement range replacement

/-- `FixItUtils::createInsertion` (lines 45-52). -/
def createInsertion (start : SourceLocation) (insertion : String) : FixItHint :=
  if start.isInvalid then FixItHint.null
  else FixItHint.insertion start insertion

/-- `FixItUtils::rangeForLiteral` (lines 54-78). The result is `none` when the token
lookup of line 60 falls outside the literal. -/
def rangeForLiteral (ci : CompilerInstance) : Option StringLiteral → Option SourceRange
  | none => some SourceRange.invalid
  | some lt =>
    let numTokens : Int := lt.getNumConcatenated
    match lt.getStrTokenLoc (numTokens - 1) with
    | none => none
    | some lastTokenLoc =>
      if lastTokenLoc.isInvalid then some SourceRange.invalid
      else
        let end_ := ci.getLocForEndOfToken lastTokenLoc 0
        if !end_.isValid then some SourceRange.invalid
        else some ⟨lt.locStart, end_⟩

/-- `FixItUtils::insertParentMethodCall` (lines 80-84); the by-reference vector is
passed in and returned. -/
def insertParentMethodCall (method : String) (range : SourceRange)
    (fixits : List FixItHint) : List FixItHint :=
  (fixits ++ [createInsertion range.getEnd ")"]) ++
    [createInsertion range.getBegin (method.push '(')]

/-- `FixItUtils::insertParentMethodCallAroundStringLiteral` (lines 86-97). -/
def insertParentMethodCallAroundStringLiteral (ci : CompilerInstance) (method : String)
    (lt : Option StringLiteral) (fixits : List FixItHint) : Option (Bool × List FixItHint) :=
  match lt with
  | none => some (false, fixits)
  | some l =>
    match rangeForLiteral ci (some l) with
    | none => none
    | some range =>
      if range.isInvalid then some (false, fixits)
      else some (true, insertParentMethodCall method range fixits)

/-- `FixItUtils::locForNextToken` (lines 99-115). The first argument bounds the number of
nested calls; `none` means the bound was reached before the function returned. -/
def locForNextToken (ci : CompilerInstance) :
    Nat → SourceLocation → TokenKind → Option SourceLocation
  | 0, _, _ => none
  | fuel + 1, start, kind =>
    if !start.isValid then some SourceLocation.invalid
    else if ci.getRawTokenKind start = kind then some start
    else
      let nextStart := ci.getLocForEndOfToken start 0
      if nextStart.getRawEncoding = start.getRawEncoding then some SourceLocation.invalid
      else locForNextToken ci fuel nextStart kind

mutual
/-- `FixItUtils::biggestSourceLocationInStmt` (lines 117-131). -/
def biggestSourceLocationInStmt (sm : SourceManager) : Stmt → SourceLocation
  | Stmt.null => SourceLocation.invalid
  | Stmt.node _ locEnd children => biggestLocLoop sm children locEnd
/-- The `for` loop of lines 124-128 over the remaining children, from the running
maximum `biggestLoc`. -/
def biggestLocLoop (sm : SourceManager) : List Stmt → SourceLocation → SourceLocation
  | [], biggestLoc => biggestLoc
  | child :: rest, biggestLoc =>
    let candidateLoc := biggestSourceLocationInStmt sm child
    biggestLocLoop sm rest
      (if candidateLoc.isValid && sm.isBeforeInSLocAddrSpace biggestLoc candidateLoc
        then candidateLoc else biggestLoc)
end

/-- `FixItUtils::locForEndOfToken` (lines 133-136). -/
def locForEndOfToken (ci : CompilerInstance) (start : SourceLocation) (offset : Int) :
    SourceLocation :=
  ci.getLocForEndOfToken start offset

/-- `FixItUtils::transformTwoCallsIntoOne` (lines 138-164): the returned flag and the
vector after the call. -/
def transformTwoCallsIntoOne (ci : CompilerInstance) (call1 : Stmt)
    (call2 : Option CXXMemberCallExpr) (replacement : String) (fixits : List FixItHint) :
    Option (Bool × List FixItHint) :=
  match call2 with
  | none => none
  | some c2 =>
    match c2.implicitObjectArgument with
    | Stmt.null => some (false, fixits)
    | Stmt.node _ implicitArgumentEnd _ =>
      match call1 with
      | Stmt.null => none
      | Stmt.node start1 _ _ =>
        let end1 := locForEndOfToken ci start1 (-1)
        if end1.isInvalid then some (false, fixits)
        else
          let start2 := implicitArgumentEnd
          let end2 := c2.locEnd
          if start2.isInvalid || end2.isInvalid then some (false, fixits)
          else
            some (true, (fixits ++ [createReplacement ⟨start1, end1⟩ replacement]) ++
              [createReplacement ⟨start2, end2⟩ ")"])

/-- `FixItUtils::transformTwoCallsIntoOneV2` (lines 166-180). -/
def transformTwoCallsIntoOneV2 (ci : CompilerInstance) (call2 : Option CXXMemberCallExpr)
    (replacement : String) (fixits : List FixItHint) : Option (Bool × List FixItHint) :=
  match call2 with
  | none => none
  | some c2 =>
    match c2.implicitObjectArgument with
    | Stmt.null => some (false, fixits)
    | Stmt.node implicitArgumentStart _ _ =>
      let start := locForEndOfToken ci implicitArgumentStart 0
      let end_ := c2.locEnd
      if start.isInvalid || end_.isInvalid then some (false, fixits)
      else some (true, fixits ++ [createReplacement ⟨start, end_⟩ replacement])

/-- The `int` argument of line 191, `replacee.size() - 2`: a `size_t` subtraction
converted to the `int` parameter of `getLocWithOffset`. A `std::string` is a Lean
string, one character per `char`. -/
def fallbackOffset (replacee : String) : Int := toInt32 (sizeSub replacee.length 2)

/-- `FixItUtils::fixItReplaceWordWithWord` (lines 182-201); the three `printLocation`
calls only log. -/
def fixItReplaceWordWithWord (ci : CompilerInstance) (begin_ : Stmt)
    (replacement replacee : String) : Option FixItHint :=
  match begin_ with
  | Stmt.null => none
  | Stmt.node rangeStart _ _ =>
    let rangeEnd := ci.getLocForEndOfToken rangeStart (-1)
    if rangeEnd.isInvalid then
      let rangeEnd := rangeStart.getLocWithOffset (fallbackOffset replacee)
      if rangeEnd.isInvalid then some FixItHint.null
      else some (FixItHint.replacement ⟨rangeStart, rangeEnd⟩ replacement)
    else some (FixItHint.replacement ⟨rangeStart, rangeEnd⟩ replacement)

/-- `FixItUtils::fixItRemoveToken` (lines 203-221). -/
def fixItRemoveToken (ci : CompilerInstance) (stmt : Stmt) (removeParenthesis : Bool) :
    Option (List FixItHint) :=
  match stmt with
  | Stmt.null => none
  | Stmt.node start stmtEnd _ =>
    let end_ := ci.getLocForEndOfToken start (if removeParenthesis then 0 else -1)
    let fixits : List FixItHint := []
    if start.isValid && end_.isValid then
      let fixits := fixits ++ [FixItHint.removal ⟨start, end_⟩]
      if removeParenthesis then
        some (fixits ++ [FixItHint.removal ⟨stmtEnd, stmtEnd⟩])
      else some fixits
    else some fixits

/-! ## Applying hints to a text

The code that applies the hints to the source text belongs to the host frontend and is
missing from the repository. The text of a file starts at the raw encoding 1, one position
per character. -/

/-- Modelled from the spec: application of the hints by the host frontend, the insertions.
The text the insertions of `hints` put at position `p`, in the order of the list (an
insertion at a position where text was inserted before goes after it). -/
def insertedAt : List FixItHint → SourceLocation → List Char
  | [], _ => []
  | FixItHint.insertion q code :: rest, p =>
    (if q = p then code.data else []) ++ insertedAt rest p
  | _ :: rest, p => insertedAt rest p

/-- Modelled from the spec: application of the hints by the host frontend, the range edits.
The first removal or replacement of `hints` whose range begins at `p`, as the end of its
range and the text that takes its place. -/
def rangeEditAt : List FixItHint → SourceLocation → Option (SourceLocation × List Char)
  | [], _ => none
  | FixItHint.removal r :: rest, p => if r.b = p then some (r.e, []) else rangeEditAt rest p
  | FixItHint.replacement r code :: rest, p =>
    if r.b = p then some (r.e, code.data) else rangeEditAt rest p
  | _ :: rest, p => rangeEditAt rest p

/-- Modelled from the spec: application of the hints by the host frontend, the walk over
the text. The edited text from position `p` on, `skip` characters of a range being
rewritten still to drop. A range `(b, e)` is a token range: it covers the text from `b` to
the end of the token that starts at `e`. -/
def applyHintsFrom (ci : CompilerInstance) (hints : List FixItHint) :
    List Char → Nat → Nat → List Char
  | [], p, _ => insertedAt hints ⟨p⟩
  | _ :: cs, p, skip + 1 => applyHintsFrom ci hints cs (p + 1) skip
  | c :: cs, p, 0 =>
    insertedAt hints ⟨p⟩ ++
      (match rangeEditAt hints ⟨p⟩ with
        | some (e, code) =>
          code ++ applyHintsFrom ci hints cs (p + 1) ((ci.getLocForEndOfToken e 0).raw - p - 1)
        | none => c :: applyHintsFrom ci hints cs (p + 1) 0)

/-- Modelled from the spec: application of the hints by the host frontend. The text after
all of `hints` are applied to `text`, every hint at the position it names in the original
text. -/
def applyHints (ci : CompilerInstance) (hints : List FixItHint) (text : List Char) : List Char :=
  applyHintsFrom ci hints text 1 0

/-! ## A frontend over a plain text, for the examples -/

/-- Characters of an identifier. -/
def isIdentChar (c : Char) : Bool := c.isAlphanum || c == '_'

/-- Length of the run of identifier characters at the head of the text. -/
def identLen : List Char → Nat
  | [] => 0
  | c :: cs => if isIdentChar c then identLen cs + 1 else 0

/-- Length of the rest of a string literal, closing quote included. -/
def stringRestLen : List Char → Nat
  | [] => 0
  | c :: cs => if c == '"' then 1 else stringRestLen cs + 1

/-- Length of the raw token at the head of the text; 0 at the end of the text. -/
def rawTokenLen : List Char → Nat
  | [] => 0
  | c :: cs =>
    if isIdentChar c then identLen cs + 1
    else if c == '"' then stringRestLen cs + 1
    else 1

/-- Kind of the raw token at the head of the text. -/
def rawTokenKind : List Char → TokenKind
  | [] => TokenKind.eof
  | c :: _ =>
    if isIdentChar c then TokenKind.identifier
    else if c == '"' then TokenKind.string_literal
    else if c == '(' then TokenKind.l_paren
    else if c == ')' then TokenKind.r_paren
    else if c == '.' then TokenKind.period
    else if c == ',' then TokenKind.comma
    else if c == ';' then TokenKind.semi
    else TokenKind.unknown

/-- A frontend for the file `text`: positions are ordered by their raw encoding, the end of
a token with offset `k` lies `k` characters from the position just past the token (so `-1`
is the last character of the token, as lines 155-159 of the source picture it), and a
position outside the file has no end of token. -/
def textCI (text : List Char) : CompilerInstance :=
  ⟨⟨fun a b => decide (a.raw < b.raw)⟩,
   fun loc offset =>
    if loc.isInvalid then SourceLocation.invalid
    else if text.length + 1 < loc.raw then SourceLocation.invalid
    else ⟨(((loc.raw + rawTokenLen (text.drop (loc.raw - 1)) : Nat) : Int) + offset).toNat⟩,
   fun loc => rawTokenKind (text.drop (loc.raw - 1))⟩

/-- The text of the example of lines 155-159, with the argument `"X"`. -/
def qgetenvText : List Char := "qgetenv(\"X\").isEmpty()".data

/-- A frontend whose end-of-token computation answers `l` everywhere; no position is
before another and every token is of unknown kind. -/
def constCI (l : SourceLocation) : CompilerInstance :=
  ⟨⟨fun _ _ => false⟩, fun _ _ => l, fun _ => TokenKind.unknown⟩

/-- The call `qgetenv("X")` of `qgetenvText`: it starts at `q` and ends at the first `)`. -/
def qgetenvCall : Stmt := Stmt.node ⟨1⟩ ⟨12⟩ []

/-- The call `qgetenv("X").isEmpty()` of `qgetenvText`: it ends at the last `)` and its
receiver is `qgetenvCall`. -/
def isEmptyCall : CXXMemberCallExpr := ⟨⟨1⟩, ⟨22⟩, qgetenvCall⟩

mutual
/-- The end positions of all nodes of a subtree, the root first. -/
def Stmt.locEnds : Stmt → List SourceLocation
  | Stmt.null => []
  | Stmt.node _ locEnd children => locEnd :: locEndsOfList children
/-- The end positions of all nodes of the subtrees of a list of statements. -/
def locEndsOfList : List Stmt → List SourceLocation
  | [] => []
  | child :: rest => child.locEnds ++ locEndsOfList rest
end

/-- The ordering relation of `sm` is a strict total order on the positions: irreflexive,
transitive, and any two different positions are ordered one way or the other. -/
def SourceManager.IsStrictTotalOrder (sm : SourceManager) : Prop :=
  (∀ a, sm.isBeforeInSLocAddrSpace a a = false) ∧
    (∀ a b c, sm.isBeforeInSLocAddrSpace a b = true → sm.isBeforeInSLocAddrSpace b c = true →
      sm.isBeforeInSLocAddrSpace a c = true) ∧
    (∀ a b, a ≠ b → sm.isBeforeInSLocAddrSpace a b = true ∨ sm.isBeforeInSLocAddrSpace b a = true)

/-- The ordering relation of `sm` puts the invalid position before every valid one. -/
def SourceManager.InvalidFirst (sm : SourceManager) : Prop :=
  ∀ a : SourceLocation, a.isValid = true →
    sm.isBeforeInSLocAddrSpace SourceLocation.invalid a = true

/-- The source manager that orders positions by their raw encoding. -/
def rawOrderSM : SourceManager := ⟨fun a b => decide (a.raw < b.raw)⟩

/-- A source manager that orders the valid positions by their raw encoding and puts the
invalid position after all of them. -/
def invalidLastSM : SourceManager :=
  ⟨fun a b => decide (a.raw ≠ 0 ∧ (b.raw = 0 ∨ a.raw < b.raw))⟩

/-- A statement that ends at 1, with one child whose end is invalid, with one child that
ends at 2. -/
def nestedStmt : Stmt :=
  Stmt.node ⟨1⟩ ⟨1⟩ [Stmt.node ⟨1⟩ ⟨0⟩ [Stmt.node ⟨1⟩ ⟨2⟩ []]]

/-- A finite token stream that ends at the raw encoding `streamEnd`: from every position, the
end of the token there is invalid, or it is not behind the position and not beyond the end
of the stream. -/
def FiniteTokenStream (ci : CompilerInstance) (streamEnd : Nat) : Prop :=
  ∀ p : SourceLocation,
    (ci.getLocForEndOfToken p 0).raw = 0 ∨
      (p.raw ≤ (ci.getLocForEndOfToken p 0).raw ∧ (ci.getLocForEndOfToken p 0).raw ≤ streamEnd)

/-- A replaced word of 2^31 + 2 characters. -/
def longWord : String := String.mk (List.replicate 2147483650 'a')

/-- The no-op test of a hint, `clang::FixItHint::isNull`: the range the hint edits is not
valid. The default-constructed hint is a no-op hint, and so is every hint built over an
invalid position or over a range with an invalid end: it edits nothing. -/
def FixItHint.isNull : FixItHint → Bool
  | FixItHint.null => true
  | FixItHint.insertion p _ => p.isInvalid
  | FixItHint.removal r => r.isInvalid
  | FixItHint.replacement r _ => r.isInvalid

/-- The lexer of the frontend has no end of token for the invalid position:
`Lexer::getLocForEndOfToken` answers the invalid position for it, whatever the offset. -/
def CompilerInstance.NoEndOfTokenForInvalid (ci : CompilerInstance) : Prop :=
  ∀ offset : Int, (ci.getLocForEndOfToken SourceLocation.invalid offset).isValid = false

/-- A statement whose own end is invalid, with one child that ends at 5. -/
def invalidEndStmt : Stmt := Stmt.node ⟨1⟩ ⟨0⟩ [Stmt.node ⟨1⟩ ⟨5⟩ []]

/-! ## `checkmanager.h`

The header declares the registry and its selection functions; their bodies are in
`checkmanager.cpp`, which is missing, and `CheckLevel` is declared in `checkbase.h`, which
is missing as well. -/

/-- Modelled from the spec: the severity tier of a check, `CheckLevel` of the missing
`checkbase.h`. Tiers form a total order; a tier is given by its rank. -/
abbrev CheckLevel := Int

/-- A registered check, `RegisteredCheck` (lines 53-59), without its factory function. -/
structure RegisteredCheck where
  name : String
  level : CheckLevel
deriving DecidableEq, Repr

/-- The part of the `CheckManager` that the selection functions read: the registered checks in
registration order (line 129) and the requested level (line 134). -/
structure CheckManager where
  m_registeredChecks : List RegisteredCheck
  m_requestedLevel : CheckLevel

/-- Modelled from the spec: the loop of `CheckManager::availableChecks`, whose body is in the
missing `checkmanager.cpp`: it keeps, in registration order, the checks whose tier is at most
`maxLevel`. -/
def availableChecksFrom (maxLevel : CheckLevel) : List RegisteredCheck → List RegisteredCheck
  | [] => []
  | c :: rest =>
    if c.level ≤ maxLevel then c :: availableChecksFrom maxLevel rest
    else availableChecksFrom maxLevel rest

/-- Modelled from the spec: `CheckManager::availableChecks` (declared at line 73, body in the
missing `checkmanager.cpp`): all checks with tier at most `maxLevel`, in registration order. -/
def CheckManager.availableChecks (m : CheckManager) (maxLevel : CheckLevel) :
    List RegisteredCheck :=
  availableChecksFrom maxLevel m.m_registeredChecks

/-- Modelled from the spec: `CheckManager::checksFromRequestedLevel` (declared at line 84, body
in the missing `checkmanager.cpp`): all checks with level at most the requested level, as the
comment of lines 81-83 says. -/
def CheckManager.checksFromRequestedLevel (m : CheckManager) : List RegisteredCheck :=
  m.availableChecks m.m_requestedLevel

/-- Modelled from the spec: `CheckManager::checkForName` (declared at line 76, body in the
missing `checkmanager.cpp`): the first check of the list with the name, if there is one. -/
def checkForName (checks : List RegisteredCheck) (name : String) : Option RegisteredCheck :=
  checks.find? (fun c => c.name == name)

/-- Modelled from the spec: the entries of a comma-separated specification, of the missing
`checkmanager.cpp`: the pieces between the commas, in order. -/
def splitAtCommas : List Char → List (List Char)
  | [] => [[]]
  | c :: cs =>
    if c = ',' then [] :: splitAtCommas cs
    else
      match splitAtCommas cs with
      | [] => [[c]]
      | e :: es => (c :: e) :: es

/-- Modelled from the spec: whether an entry has the leading `-` that means "exclude". -/
def entryExcluded : List Char → Bool
  | '-' :: _ => true
  | _ => false

/-- Modelled from the spec: the name an entry carries, without the leading `-`. -/
def entryName : List Char → String
  | '-' :: name => String.mk name
  | e => String.mk e

/-- Modelled from the spec: the loop of `CheckManager::checksForCommaSeparatedString` over the
entries, of the missing `checkmanager.cpp`: the resolved checks and the unknown names. An
entry whose name matches no registered check adds the name to the unknown names; an entry
without the leading `-` whose name is registered adds the check to the resolved list. -/
def checksForEntries (registered : List RegisteredCheck) :
    List (List Char) → List RegisteredCheck × List String
  | [] => ([], [])
  | e :: es =>
    match checkForName registered (entryName e) with
    | none => ((checksForEntries registered es).1, entryName e :: (checksForEntries registered es).2)
    | some c =>
      if entryExcluded e then checksForEntries registered es
      else (c :: (checksForEntries registered es).1, (checksForEntries registered es).2)

/-- Modelled from the spec: `CheckManager::checksForCommaSeparatedString` (declared at lines
77-78, body in the missing `checkmanager.cpp`): the checks the specification resolves to and,
separately, the names in it that match no registered check. -/
def CheckManager.checksForCommaSeparatedString (m : CheckManager) (str : String) :
    List RegisteredCheck × List String :=
  checksForEntries m.m_registeredChecks (splitAtCommas str.data)

/-- A registry with the checks `foo` and `baz`, and no check `bar`. -/
def fooBazManager : CheckManager := ⟨[⟨"foo", 0⟩, ⟨"baz", 1⟩], 1⟩

/-- The chain of positions the scan of `locForNextToken` visits from `start`: `start`, the
end-of-token of `start`, the end-of-token of that, and so on. -/
def scanChain (ci : CompilerInstance) (start : SourceLocation) : Nat → SourceLocation
  | 0 => start
  | i + 1 => ci.getLocForEndOfToken (scanChain ci start i) 0

/-! # Properties -/

/-! ## `createReplacement`, `createInsertion` -/

theorem isInvalid_eq_not_isValid (l : SourceLocation) : l.isInvalid = !l.isValid := by
  simp [SourceLocation.isInvalid, SourceLocation.isValid, bne]

/-- C4: for every range `r` and text `t`, `createReplacement r t` is a no-op hint whenever
`r` is invalid, that is when its begin or its end is invalid, and it is `Replacement{r, t}`
otherwise; for every position `p`, `createInsertion p t` is the no-op hint if `p` is invalid
and `Insertion{p, t}` otherwise. In full: `createReplacement` answers the default hint when
the begin of `r` is invalid and `Replacement{r, t}` in every other case, which is a no-op
hint when the end of `r` is invalid. -/
theorem createReplacement_createInsertion_noop (r : SourceRange) (p : SourceLocation)
    (t : String) :
    (r.isInvalid = true → (createReplacement r t).isNull = true) ∧
      (r.isInvalid = false → createReplacement r t = FixItHint.replacement r t ∧
        (createReplacement r t).isNull = false) ∧
      (p.isInvalid = true → createInsertion p t = FixItHint.null ∧
        (createInsertion p t).isNull = true) ∧
      (p.isInvalid = false → createInsertion p t = FixItHint.insertion p t ∧
        (createInsertion p t).isNull = false) ∧
      createReplacement r t
        = (if r.getBegin.isValid then FixItHint.replacement r t else FixItHint.null) ∧
      createInsertion p t
        = (if p.isValid then FixItHint.insertion p t else FixItHint.null) := by
  obtain ⟨b, e⟩ := r
  by_cases hb : b.isValid = true <;> by_cases he : e.isValid = true <;>
    by_cases hp : p.isValid = true <;>
    simp [createReplacement, createInsertion, FixItHint.isNull, SourceRange.isInvalid,
      SourceRange.isValid, SourceRange.getBegin, isInvalid_eq_not_isValid, hb, he, hp]

/-- C4, at the range `(5, invalid)`, an invalid range, at the valid range `(5, 7)`, and at the
invalid and the valid position. -/
theorem createReplacement_createInsertion_noop_witness :
    (SourceRange.isInvalid ⟨⟨5⟩, ⟨0⟩⟩ = true ∧
        (createReplacement ⟨⟨5⟩, ⟨0⟩⟩ "x").isNull = true) ∧
      (SourceRange.isInvalid ⟨⟨5⟩, ⟨7⟩⟩ = false ∧
        createReplacement ⟨⟨5⟩, ⟨7⟩⟩ "x" = FixItHint.replacement ⟨⟨5⟩, ⟨7⟩⟩ "x") ∧
      (SourceLocation.isInvalid ⟨0⟩ = true ∧ createInsertion ⟨0⟩ "x" = FixItHint.null) ∧
      (SourceLocation.isInvalid ⟨5⟩ = false ∧
        createInsertion ⟨5⟩ "x" = FixItHint.insertion ⟨5⟩ "x") :=
  ⟨⟨by decide,
      (createReplacement_createInsertion_noop ⟨⟨5⟩, ⟨0⟩⟩ ⟨0⟩ "x").1 (by decide)⟩,
    ⟨by decide,
      ((createReplacement_createInsertion_noop ⟨⟨5⟩, ⟨7⟩⟩ ⟨0⟩ "x").2.1 (by decide)).1⟩,
    ⟨by decide,
      ((createReplacement_createInsertion_noop ⟨⟨5⟩, ⟨7⟩⟩ ⟨0⟩ "x").2.2.1 (by decide)).1⟩,
    ⟨by decide,
      ((createReplacement_createInsertion_noop ⟨⟨5⟩, ⟨7⟩⟩ ⟨5⟩ "x").2.2.2.1 (by decide)).1⟩⟩

/-! ## `transformTwoCallsIntoOne` -/

theorem transformTwoCallsIntoOne_node (ci : CompilerInstance)
    (start1 e1 : SourceLocation) (cs1 : List Stmt) (ls2 end2 rs start2 : SourceLocation)
    (rcs : List Stmt) (replacement : String) (out : List FixItHint) :
    transformTwoCallsIntoOne ci (Stmt.node start1 e1 cs1)
          (some ⟨ls2, end2, Stmt.node rs start2 rcs⟩) replacement out
        = (if (ci.getLocForEndOfToken start1 (-1)).isValid && start2.isValid && end2.isValid
            then some (true, out ++
              [if start1.isValid
                then FixItHint.replacement ⟨start1, ci.getLocForEndOfToken start1 (-1)⟩ replacement
                else FixItHint.null,
               FixItHint.replacement ⟨start2, end2⟩ ")"])
            else some (false, out)) := by
  simp only [transformTwoCallsIntoOne, locForEndOfToken, createReplacement,
    SourceRange.getBegin, isInvalid_eq_not_isValid]
  cases h1 : (ci.getLocForEndOfToken start1 (-1)).isValid <;>
    cases h2 : start2.isValid <;> cases h3 : end2.isValid <;>
    cases h0 : start1.isValid <;> simp

theorem eq_invalid_of_isInvalid (l : SourceLocation) (h : l.isInvalid = true) :
    l = SourceLocation.invalid := by
  cases l with
  | mk r =>
    have hr : r = 0 := by simpa [SourceLocation.isInvalid] using h
    subst hr
    rfl

/-- C1: on a frontend whose lexer has no end of token for the invalid position,
`transformTwoCallsIntoOne` returns false and leaves `out` exactly as it was if and only if
`call2` has no receiver or at least one of `start1` (start of `call1`), `end1` (end-of-token
of `start1` with offset -1), `start2` (end of the receiver) or `end2` (end of `call2`) is
invalid; in every other case it returns true, with the two replacements appended. The code
tests `end1`, `start2` and `end2`; an invalid `start1` fails the call through `end1`. -/
theorem transformTwoCallsIntoOne_false_iff (ci : CompilerInstance) (call1 : Stmt)
    (start1 e1 : SourceLocation) (cs1 : List Stmt) (ls2 end2 rs start2 : SourceLocation)
    (rcs : List Stmt) (replacement : String) (out : List FixItHint)
    (hlex : ci.NoEndOfTokenForInvalid) :
    transformTwoCallsIntoOne ci call1 (some ⟨ls2, end2, Stmt.null⟩) replacement out
        = some (false, out) ∧
      (transformTwoCallsIntoOne ci (Stmt.node start1 e1 cs1)
          (some ⟨ls2, end2, Stmt.node rs start2 rcs⟩) replacement out = some (false, out) ↔
        (start1.isInvalid = true ∨ (locForEndOfToken ci start1 (-1)).isInvalid = true ∨
          start2.isInvalid = true ∨ end2.isInvalid = true)) ∧
      transformTwoCallsIntoOne ci (Stmt.node start1 e1 cs1)
          (some ⟨ls2, end2, Stmt.node rs start2 rcs⟩) replacement out
        = (if start1.isValid && (locForEndOfToken ci start1 (-1)).isValid &&
              start2.isValid && end2.isValid
            then some (true, out ++
              [FixItHint.replacement ⟨start1, locForEndOfToken ci start1 (-1)⟩ replacement,
               FixItHint.replacement ⟨start2, end2⟩ ")"])
            else some (false, out)) ∧
      (transformTwoCallsIntoOne ci (Stmt.node start1 e1 cs1)
          (some ⟨ls2, end2, Stmt.node rs start2 rcs⟩) replacement out = some (false, out) ↔
        ((locForEndOfToken ci start1 (-1)).isInvalid = true ∨ start2.isInvalid = true ∨
          end2.isInvalid = true)) := by
  have hstart : start1.isValid = false → (ci.getLocForEndOfToken start1 (-1)).isValid = false := by
    intro h0
    have hinv : start1 = SourceLocation.invalid :=
      eq_invalid_of_isInvalid start1 (by rw [isInvalid_eq_not_isValid, h0]; rfl)
    rw [hinv]
    exact hlex (-1)
  refine ⟨by simp [transformTwoCallsIntoOne], ?_, ?_, ?_⟩
  · rw [transformTwoCallsIntoOne_node]
    simp only [isInvalid_eq_not_isValid, locForEndOfToken]
    cases h0 : start1.isValid <;>
      cases h1 : (ci.getLocForEndOfToken start1 (-1)).isValid <;>
      cases h2 : start2.isValid <;> cases h3 : end2.isValid <;> simp
    all_goals
      have := hstart h0
      rw [h1] at this
      exact absurd this (by decide)
  · rw [transformTwoCallsIntoOne_node]
    simp only [locForEndOfToken]
    cases h0 : start1.isValid <;>
      cases h1 : (ci.getLocForEndOfToken start1 (-1)).isValid <;>
      cases h2 : start2.isValid <;> cases h3 : end2.isValid <;> simp
    all_goals
      have := hstart h0
      rw [h1] at this
      exact absurd this (by decide)
  · rw [transformTwoCallsIntoOne_node]
    simp only [isInvalid_eq_not_isValid, locForEndOfToken]
    cases h1 : (ci.getLocForEndOfToken start1 (-1)).isValid <;>
      cases h2 : start2.isValid <;> cases h3 : end2.isValid <;> simp

theorem textCI_noEndOfTokenForInvalid (text : List Char) :
    (textCI text).NoEndOfTokenForInvalid := by
  intro offset
  rfl

/-- C1, on `qgetenv("X").isEmpty()`: with a `call1` whose start is invalid the call fails and
`out` is unchanged; with the calls of the text, all four positions valid, it returns true. -/
theorem transformTwoCallsIntoOne_false_iff_witness :
    (textCI qgetenvText).NoEndOfTokenForInvalid ∧
      (SourceLocation.isInvalid ⟨0⟩ = true ∧
        transformTwoCallsIntoOne (textCI qgetenvText) (Stmt.node ⟨0⟩ ⟨12⟩ [])
            (some ⟨⟨1⟩, ⟨22⟩, Stmt.node ⟨1⟩ ⟨12⟩ []⟩) "qEnvironmentVariableIsEmpty" []
          = some (false, [])) ∧
      transformTwoCallsIntoOne (textCI qgetenvText) (Stmt.node ⟨1⟩ ⟨12⟩ [])
          (some ⟨⟨1⟩, ⟨22⟩, Stmt.node ⟨1⟩ ⟨12⟩ []⟩) "qEnvironmentVariableIsEmpty" []
        = (if SourceLocation.isValid ⟨1⟩ &&
              (locForEndOfToken (textCI qgetenvText) ⟨1⟩ (-1)).isValid &&
              SourceLocation.isValid ⟨12⟩ && SourceLocation.isValid ⟨22⟩
            then some (true, [] ++
              [FixItHint.replacement ⟨⟨1⟩, locForEndOfToken (textCI qgetenvText) ⟨1⟩ (-1)⟩
                  "qEnvironmentVariableIsEmpty",
               FixItHint.replacement ⟨⟨12⟩, ⟨22⟩⟩ ")"])
            else some (false, [])) :=
  ⟨textCI_noEndOfTokenForInvalid qgetenvText,
    ⟨by decide,
      ((transformTwoCallsIntoOne_false_iff (textCI qgetenvText) Stmt.null ⟨0⟩ ⟨12⟩ [] ⟨1⟩ ⟨22⟩
        ⟨1⟩ ⟨12⟩ [] "qEnvironmentVariableIsEmpty" []
        (textCI_noEndOfTokenForInvalid qgetenvText)).2.1).mpr (Or.inl (by decide))⟩,
    (transformTwoCallsIntoOne_false_iff (textCI qgetenvText) Stmt.null ⟨1⟩ ⟨12⟩ [] ⟨1⟩ ⟨22⟩
      ⟨1⟩ ⟨12⟩ [] "qEnvironmentVariableIsEmpty" []
      (textCI_noEndOfTokenForInvalid qgetenvText)).2.2.1⟩

/-- C2: with a receiver and `start1`, `end1`, `start2`, `end2` all valid,
`transformTwoCallsIntoOne` returns true and appends `Replacement{(start1, end1), text}` and
then `Replacement{(start2, end2), ")"}`; on the text `qgetenv("X").isEmpty()` the two hints
are those of the positions of `q`, `v`, the first `)` and the last `)`, and applying them
gives `qEnvironmentVariableIsEmpty("X")`. -/
theorem transformTwoCallsIntoOne_emits (ci : CompilerInstance)
    (start1 e1 : SourceLocation) (cs1 : List Stmt) (ls2 end2 rs start2 : SourceLocation)
    (rcs : List Stmt) (replacement : String) (out : List FixItHint)
    (hstart1 : start1.isValid = true)
    (hend1 : (locForEndOfToken ci start1 (-1)).isValid = true)
    (hstart2 : start2.isValid = true) (hend2 : end2.isValid = true) :
    transformTwoCallsIntoOne ci (Stmt.node start1 e1 cs1)
          (some ⟨ls2, end2, Stmt.node rs start2 rcs⟩) replacement out
        = some (true, out ++
            [FixItHint.replacement ⟨start1, locForEndOfToken ci start1 (-1)⟩ replacement,
             FixItHint.replacement ⟨start2, end2⟩ ")"]) ∧
      (qgetenvText.get? 0 = some 'q' ∧ qgetenvText.get? 6 = some 'v' ∧
        qgetenvText.get? 11 = some ')' ∧ qgetenvText.get? 21 = some ')' ∧
        transformTwoCallsIntoOne (textCI qgetenvText) qgetenvCall (some isEmptyCall)
            "qEnvironmentVariableIsEmpty" []
          = some (true, [FixItHint.replacement ⟨⟨1⟩, ⟨7⟩⟩ "qEnvironmentVariableIsEmpty",
              FixItHint.replacement ⟨⟨12⟩, ⟨22⟩⟩ ")"]) ∧
        applyHints (textCI qgetenvText)
            [FixItHint.replacement ⟨⟨1⟩, ⟨7⟩⟩ "qEnvironmentVariableIsEmpty",
              FixItHint.replacement ⟨⟨12⟩, ⟨22⟩⟩ ")"] qgetenvText
          = "qEnvironmentVariableIsEmpty(\"X\")".data) := by
  refine ⟨?_, by decide⟩
  rw [transformTwoCallsIntoOne_node]
  simp only [locForEndOfToken] at hend1 ⊢
  simp [hstart1, hend1, hstart2, hend2]

/-- C2, at the calls of `qgetenv("X").isEmpty()`. -/
theorem transformTwoCallsIntoOne_emits_witness :
    transformTwoCallsIntoOne (textCI qgetenvText) (Stmt.node ⟨1⟩ ⟨12⟩ [])
          (some ⟨⟨1⟩, ⟨22⟩, Stmt.node ⟨1⟩ ⟨12⟩ []⟩) "qEnvironmentVariableIsEmpty" []
        = some (true, [] ++
            [FixItHint.replacement
                ⟨⟨1⟩, locForEndOfToken (textCI qgetenvText) ⟨1⟩ (-1)⟩ "qEnvironmentVariableIsEmpty",
             FixItHint.replacement ⟨⟨12⟩, ⟨22⟩⟩ ")"]) :=
  (transformTwoCallsIntoOne_emits (textCI qgetenvText) ⟨1⟩ ⟨12⟩ [] ⟨1⟩ ⟨22⟩ ⟨1⟩ ⟨12⟩ []
    "qEnvironmentVariableIsEmpty" [] (by decide) (by decide) (by decide) (by decide)).1

/-! ## `insertParentMethodCall` -/

theorem applyHintsFrom_after (ci : CompilerInstance) (hints : List FixItHint)
    (hr : ∀ q, rangeEditAt hints q = none) (e : Nat)
    (hi : ∀ q, e < q → insertedAt hints ⟨q⟩ = []) :
    ∀ (s : List Char) (p : Nat), e < p → applyHintsFrom ci hints s p 0 = s := by
  intro s
  induction s with
  | nil => intro p hp; simp [applyHintsFrom, hi p hp]
  | cons c cs ih =>
    intro p hp
    simp [applyHintsFrom, hi p hp, hr, ih (p + 1) (by omega)]

theorem applyHintsFrom_to_end (ci : CompilerInstance) (hints : List FixItHint)
    (hr : ∀ q, rangeEditAt hints q = none) (b e : Nat) (x : List Char)
    (hie : insertedAt hints ⟨e⟩ = x)
    (hi : ∀ q, b < q → q ≠ e → insertedAt hints ⟨q⟩ = []) :
    ∀ (s : List Char) (p : Nat), b < p → p ≤ e → e ≤ p + s.length →
      applyHintsFrom ci hints s p 0 = s.take (e - p) ++ x ++ s.drop (e - p) := by
  intro s
  induction s with
  | nil =>
    intro p _ hpe hes
    have hp : p = e := by simpa using Nat.le_antisymm hpe (by simpa using hes)
    subst hp
    simp [applyHintsFrom, hie]
  | cons c cs ih =>
    intro p hbp hpe hes
    rcases Nat.eq_or_lt_of_le hpe with hp | hp
    · subst hp
      have hafter := applyHintsFrom_after ci hints hr p
        (fun q hq => hi q (by omega) (by omega)) cs (p + 1) (by omega)
      simp [applyHintsFrom, hie, hr, hafter]
    · have hstep : e - p = (e - (p + 1)) + 1 := by omega
      have hrec := ih (p + 1) (by omega) (by omega) (by simp at hes; omega)
      simp [applyHintsFrom, hi p hbp (by omega), hr, hrec, hstep]

theorem applyHintsFrom_wrap (ci : CompilerInstance) (hints : List FixItHint)
    (hr : ∀ q, rangeEditAt hints q = none) (b e : Nat) (hbe : b < e) (x y : List Char)
    (hib : insertedAt hints ⟨b⟩ = y) (hie : insertedAt hints ⟨e⟩ = x)
    (hi : ∀ q, q ≠ b → q ≠ e → insertedAt hints ⟨q⟩ = []) :
    ∀ (s : List Char) (p : Nat), p ≤ b → e ≤ p + s.length →
      applyHintsFrom ci hints s p 0
        = s.take (b - p) ++ y ++ (s.drop (b - p)).take (e - b) ++ x ++ s.drop (e - p) := by
  intro s
  induction s with
  | nil => intro p hpb hes; simp at hes; omega
  | cons c cs ih =>
    intro p hpb hes
    rcases Nat.eq_or_lt_of_le hpb with hp | hp
    · subst hp
      have hrest := applyHintsFrom_to_end ci hints hr p e x hie
        (fun q hq hqe => hi q (by omega) hqe) cs (p + 1) (by omega) (by omega)
        (by simp at hes; omega)
      have hstep : e - p = (e - (p + 1)) + 1 := by omega
      simp [applyHintsFrom, hib, hr, hrest, hstep]
    · have hstep : b - p = (b - (p + 1)) + 1 := by omega
      have hstep2 : e - p = (e - (p + 1)) + 1 := by omega
      have hrec := ih (p + 1) (by omega) (by simp at hes; omega)
      simp [applyHintsFrom, hi p (by omega) (by omega), hr, hrec, hstep, hstep2]

/-- C3, at a concrete input: for the valid range `(2, 2)` of the text `ab`, whose begin is
at its end, the two insertions of `insertParentMethodCall "f"` give `a)f(b` when applied in
the order they were emitted and `af()b` when applied in the other order. -/
theorem insertParentMethodCall_empty_range_order :
    SourceRange.isValid ⟨⟨2⟩, ⟨2⟩⟩ = true ∧
      insertParentMethodCall "f" ⟨⟨2⟩, ⟨2⟩⟩ []
        = [FixItHint.insertion ⟨2⟩ ")", FixItHint.insertion ⟨2⟩ "f("] ∧
      applyHints (constCI ⟨0⟩) [FixItHint.insertion ⟨2⟩ ")", FixItHint.insertion ⟨2⟩ "f("]
          "ab".data = "a)f(b".data ∧
      applyHints (constCI ⟨0⟩) [FixItHint.insertion ⟨2⟩ "f(", FixItHint.insertion ⟨2⟩ ")"]
          "ab".data = "af()b".data := by
  decide

/-- C3, amended: for every valid range `R`, `insertParentMethodCall m R out` appends
`Insertion{R.end, ")"}` and then `Insertion{R.begin, m + "("}`; when the begin of `R` is
strictly before its end, inside the text `s`, applying the two insertions to `s`, in either
order, gives `s[0..R.begin) ++ m ++ "(" ++ s[R.begin..R.end) ++ ")" ++ s[R.end..]`. -/
theorem insertParentMethodCall_wraps (ci : CompilerInstance) (m : String) (R : SourceRange)
    (out : List FixItHint) (s : List Char) (hvalid : R.isValid = true) :
    insertParentMethodCall m R out
        = out ++ [FixItHint.insertion R.e ")", FixItHint.insertion R.b (m.push '(')] ∧
      (R.b.raw < R.e.raw → R.e.raw ≤ s.length + 1 →
        applyHints ci [FixItHint.insertion R.e ")", FixItHint.insertion R.b (m.push '(')] s
            = s.take (R.b.raw - 1) ++ (m.data ++ ['(']) ++
                (s.drop (R.b.raw - 1)).take (R.e.raw - R.b.raw) ++ [')'] ++
                s.drop (R.e.raw - 1) ∧
          applyHints ci [FixItHint.insertion R.b (m.push '('), FixItHint.insertion R.e ")"] s
            = s.take (R.b.raw - 1) ++ (m.data ++ ['(']) ++
                (s.drop (R.b.raw - 1)).take (R.e.raw - R.b.raw) ++ [')'] ++
                s.drop (R.e.raw - 1)) := by
  obtain ⟨⟨b⟩, ⟨e⟩⟩ := R
  have hv : b ≠ 0 ∧ e ≠ 0 := by
    simpa [SourceRange.isValid, SourceLocation.isValid] using hvalid
  refine ⟨?_, ?_⟩
  · simp [insertParentMethodCall, createInsertion, SourceRange.getEnd, SourceRange.getBegin,
      SourceLocation.isInvalid, hv.1, hv.2]
  · intro hlt he
    simp only at hlt he
    have hb : 1 ≤ b := Nat.one_le_iff_ne_zero.mpr hv.1
    have hbe : (⟨b⟩ : SourceLocation) ≠ ⟨e⟩ := by
      intro h; injection h with h; omega
    have heb : (⟨e⟩ : SourceLocation) ≠ ⟨b⟩ := fun h => hbe h.symm
    have hne : ∀ q, q ≠ b → q ≠ e →
        (⟨b⟩ : SourceLocation) ≠ ⟨q⟩ ∧ (⟨e⟩ : SourceLocation) ≠ ⟨q⟩ := by
      intro q hqb hqe
      constructor <;> intro h <;> injection h with h <;> omega
    constructor
    · have h := applyHintsFrom_wrap ci
        [FixItHint.insertion ⟨e⟩ ")", FixItHint.insertion ⟨b⟩ (m.push '(')]
        (fun q => by simp [rangeEditAt]) b e hlt [')'] (m.data ++ ['('])
        (by simp [insertedAt, heb]) (by simp [insertedAt, hbe])
        (fun q hqb hqe => by simp [insertedAt, (hne q hqb hqe).1, (hne q hqb hqe).2])
        s 1 hb (by omega)
      simpa [applyHints] using h
    · have h := applyHintsFrom_wrap ci
        [FixItHint.insertion ⟨b⟩ (m.push '('), FixItHint.insertion ⟨e⟩ ")"]
        (fun q => by simp [rangeEditAt]) b e hlt [')'] (m.data ++ ['('])
        (by simp [insertedAt, heb]) (by simp [insertedAt, hbe])
        (fun q hqb hqe => by simp [insertedAt, (hne q hqb hqe).1, (hne q hqb hqe).2])
        s 1 hb (by omega)
      simpa [applyHints] using h

/-- C3, amended, at the range of `qgetenv("X")` in the text `qgetenv("X").isEmpty()`: the two
insertions give `isEmpty(qgetenv("X")).isEmpty()`. -/
theorem insertParentMethodCall_wraps_witness :
    SourceRange.isValid ⟨⟨1⟩, ⟨13⟩⟩ = true ∧ 1 < 13 ∧ 13 ≤ qgetenvText.length + 1 ∧
      insertParentMethodCall "isEmpty" ⟨⟨1⟩, ⟨13⟩⟩ []
        = [] ++ [FixItHint.insertion ⟨13⟩ ")", FixItHint.insertion ⟨1⟩ ("isEmpty".push '(')] ∧
      applyHints (textCI qgetenvText)
          [FixItHint.insertion ⟨13⟩ ")", FixItHint.insertion ⟨1⟩ ("isEmpty".push '(')]
          qgetenvText
        = qgetenvText.take (1 - 1) ++ ("isEmpty".data ++ ['(']) ++
            (qgetenvText.drop (1 - 1)).take (13 - 1) ++ [')'] ++ qgetenvText.drop (13 - 1) ∧
      applyHints (textCI qgetenvText)
          [FixItHint.insertion ⟨13⟩ ")", FixItHint.insertion ⟨1⟩ ("isEmpty".push '(')]
          qgetenvText
        = "isEmpty(qgetenv(\"X\")).isEmpty()".data :=
  ⟨by decide, by decide, by decide,
    (insertParentMethodCall_wraps (textCI qgetenvText) "isEmpty" ⟨⟨1⟩, ⟨13⟩⟩ [] qgetenvText
      (by decide)).1,
    ((insertParentMethodCall_wraps (textCI qgetenvText) "isEmpty" ⟨⟨1⟩, ⟨13⟩⟩ [] qgetenvText
      (by decide)).2 (by decide) (by decide)).1,
    by decide⟩

/-! ## `rangeForLiteral` -/

/-- C5, at concrete inputs: (1) a one-token literal at position 5 whose end-of-token is
invalid gets the default range, whose begin is invalid and so is not the literal's start;
(2) a two-token literal whose own start is invalid and whose last token, at 5, has the valid
end-of-token 8 gets the range `(invalid, 8)`: an invalid range, although the last token's
position and its end-of-token are valid. -/
theorem rangeForLiteral_begin_and_validity :
    (rangeForLiteral (constCI ⟨0⟩) (some ⟨⟨5⟩, [⟨5⟩]⟩) = some ⟨⟨0⟩, ⟨0⟩⟩ ∧
        (⟨0⟩ : SourceLocation) ≠ ⟨5⟩) ∧
      (rangeForLiteral (constCI ⟨8⟩) (some ⟨⟨0⟩, [⟨0⟩, ⟨5⟩]⟩) = some ⟨⟨0⟩, ⟨8⟩⟩ ∧
        SourceRange.isInvalid ⟨⟨0⟩, ⟨8⟩⟩ = true ∧
        SourceLocation.isValid ⟨5⟩ = true ∧
        ((constCI ⟨8⟩).getLocForEndOfToken ⟨5⟩ 0).isValid = true) := by
  decide

/-- C5, amended: for a present literal made of the tokens `ts` followed by a last token
`last` (so `N >= 1`): if the position of `last` and its end-of-token (offset 0) are both
valid, `rangeForLiteral` returns the range from the literal's own start to that
end-of-token, and otherwise the default range, both ends invalid; the returned range is
invalid if and only if the position of `last`, its end-of-token or the literal's own start
is invalid. For an absent literal the returned range is the default, invalid range. -/
theorem rangeForLiteral_last_token (ci : CompilerInstance) (locStart last : SourceLocation)
    (ts : List SourceLocation) :
    rangeForLiteral ci (some ⟨locStart, ts ++ [last]⟩)
        = some (if last.isValid && (ci.getLocForEndOfToken last 0).isValid
            then ⟨locStart, ci.getLocForEndOfToken last 0⟩ else SourceRange.invalid) ∧
      ((if last.isValid && (ci.getLocForEndOfToken last 0).isValid
            then (⟨locStart, ci.getLocForEndOfToken last 0⟩ : SourceRange)
            else SourceRange.invalid).isInvalid = true ↔
        (last.isInvalid = true ∨ (ci.getLocForEndOfToken last 0).isInvalid = true ∨
          locStart.isInvalid = true)) ∧
      rangeForLiteral ci none = some SourceRange.invalid ∧
      SourceRange.invalid.isInvalid = true := by
  have hidx : ((ts.length : Int) + 1 - 1).toNat = ts.length := by simp
  refine ⟨?_, ?_, rfl, by decide⟩
  · simp only [rangeForLiteral, StringLiteral.getNumConcatenated, StringLiteral.getStrTokenLoc,
      List.length_append, List.length_singleton, Nat.cast_add, Nat.cast_one,
      isInvalid_eq_not_isValid]
    have hnonneg : (0 : Int) ≤ (ts.length : Int) + 1 - 1 := by omega
    simp only [hnonneg, if_true, hidx]
    simp only [List.get?_eq_getElem?, List.getElem?_append_right (Nat.le_refl _), Nat.sub_self,
      List.getElem?_cons_zero]
    cases h1 : last.isValid <;> cases h2 : (ci.getLocForEndOfToken last 0).isValid <;> simp
  · simp only [isInvalid_eq_not_isValid, SourceRange.isInvalid, SourceRange.isValid,
      SourceRange.invalid]
    cases h1 : last.isValid <;> cases h2 : (ci.getLocForEndOfToken last 0).isValid <;>
      cases h3 : locStart.isValid <;> simp [h2, h3] <;> decide

/-! ## `biggestSourceLocationInStmt` -/

theorem invalidLastSM_isStrictTotalOrder : invalidLastSM.IsStrictTotalOrder := by
  refine ⟨?_, ?_, ?_⟩
  · intro a
    simp [invalidLastSM]
  · intro a b c hab hbc
    simp only [invalidLastSM, decide_eq_true_eq] at hab hbc ⊢
    omega
  · intro a b hne
    have hraw : a.raw ≠ b.raw := by
      intro h
      apply hne
      cases a; cases b; simp_all
    simp only [invalidLastSM, decide_eq_true_eq]
    omega

/-- C6, at a concrete input: under a strict total order of the positions that puts the
invalid position last, the statement `nestedStmt` (end 1, a child with an invalid end, a
grandchild with end 2) gets the position 1, which is strictly before the valid end 2 of the
grandchild. -/
theorem biggestSourceLocationInStmt_not_biggest :
    invalidLastSM.IsStrictTotalOrder ∧
      biggestSourceLocationInStmt invalidLastSM nestedStmt = ⟨1⟩ ∧
      (⟨2⟩ : SourceLocation) ∈ nestedStmt.locEnds ∧
      SourceLocation.isValid ⟨2⟩ = true ∧
      invalidLastSM.isBeforeInSLocAddrSpace ⟨1⟩ ⟨2⟩ = true := by
  refine ⟨invalidLastSM_isStrictTotalOrder, ?_, ?_, ?_, ?_⟩ <;> decide

theorem not_before_of_le (sm : SourceManager) (hord : sm.IsStrictTotalOrder)
    {a r d : SourceLocation}
    (hle : a = r ∨ sm.isBeforeInSLocAddrSpace a r = true)
    (had : sm.isBeforeInSLocAddrSpace a d = false) :
    sm.isBeforeInSLocAddrSpace r d = false := by
  cases hrd : sm.isBeforeInSLocAddrSpace r d with
  | false => rfl
  | true =>
    rcases hle with h | h
    · subst h; rw [hrd] at had; exact had
    · have := hord.2.1 a r d h hrd
      rw [this] at had; exact had

mutual
theorem biggestSourceLocationInStmt_bound (sm : SourceManager)
    (hord : sm.IsStrictTotalOrder) (hmin : sm.InvalidFirst) :
    ∀ (stmt : Stmt) (d : SourceLocation), d ∈ stmt.locEnds → d.isValid = true →
      sm.isBeforeInSLocAddrSpace (biggestSourceLocationInStmt sm stmt) d = false
  | Stmt.null, d, hd, _ => by simp [Stmt.locEnds] at hd
  | Stmt.node _ e cs, d, hd, hv => by
    have h := biggestLocLoop_bound sm hord hmin cs e
    simp only [biggestSourceLocationInStmt]
    simp only [Stmt.locEnds, List.mem_cons] at hd
    rcases hd with hd | hd
    · subst hd
      exact not_before_of_le sm hord h.1 (hord.1 d)
    · exact h.2 d hd hv
theorem biggestLocLoop_bound (sm : SourceManager)
    (hord : sm.IsStrictTotalOrder) (hmin : sm.InvalidFirst) :
    ∀ (cs : List Stmt) (b : SourceLocation),
      (b = biggestLocLoop sm cs b ∨
          sm.isBeforeInSLocAddrSpace b (biggestLocLoop sm cs b) = true) ∧
        ∀ d, d ∈ locEndsOfList cs → d.isValid = true →
          sm.isBeforeInSLocAddrSpace (biggestLocLoop sm cs b) d = false
  | [], b => by
    simp [biggestLocLoop, locEndsOfList]
  | c :: cs, b => by
    have hc := biggestSourceLocationInStmt_bound sm hord hmin c
    simp only [biggestLocLoop, locEndsOfList, List.mem_append]
    generalize hcand : biggestSourceLocationInStmt sm c = cand at hc ⊢
    by_cases hadopt : (cand.isValid && sm.isBeforeInSLocAddrSpace b cand) = true
    · have hrest := biggestLocLoop_bound sm hord hmin cs cand
      simp only [hadopt, if_true]
      simp only [Bool.and_eq_true] at hadopt
      refine ⟨?_, ?_⟩
      · rcases hrest.1 with h | h
        · rw [← h]; exact Or.inr hadopt.2
        · exact Or.inr (hord.2.1 _ _ _ hadopt.2 h)
      · intro d hd hv
        rcases hd with hd | hd
        · exact not_before_of_le sm hord hrest.1 (hc d hd hv)
        · exact hrest.2 d hd hv
    · have hrest := biggestLocLoop_bound sm hord hmin cs b
      simp only [hadopt]
      refine ⟨hrest.1, ?_⟩
      intro d hd hv
      rcases hd with hd | hd
      · have hcd := hc d hd hv
        cases hcv : cand.isValid with
        | false =>
          have hinv : cand = SourceLocation.invalid := by
            cases cand with
            | mk r =>
              have : r = 0 := by simpa [SourceLocation.isValid] using hcv
              subst this; rfl
          rw [hinv, hmin d hv] at hcd
          exact absurd hcd (by decide)
        | true =>
          have hnb : sm.isBeforeInSLocAddrSpace b cand = false := by
            cases hb : sm.isBeforeInSLocAddrSpace b cand with
            | false => rfl
            | true => exact absurd (by simp [hcv, hb]) hadopt
          have hle : cand = b ∨ sm.isBeforeInSLocAddrSpace cand b = true := by
            by_cases heq : cand = b
            · exact Or.inl heq
            · rcases hord.2.2 cand b heq with h | h
              · exact Or.inr h
              · rw [h] at hnb; exact absurd hnb (by decide)
          have hbd := not_before_of_le sm hord hle hcd
          exact not_before_of_le sm hord hrest.1 hbd
      · exact hrest.2 d hd hv
end

theorem rawOrderSM_isStrictTotalOrder : rawOrderSM.IsStrictTotalOrder := by
  refine ⟨?_, ?_, ?_⟩
  · intro a
    simp [rawOrderSM]
  · intro a b c hab hbc
    simp only [rawOrderSM, decide_eq_true_eq] at hab hbc ⊢
    omega
  · intro a b hne
    have hraw : a.raw ≠ b.raw := by
      intro h
      apply hne
      cases a; cases b; simp_all
    simp only [rawOrderSM, decide_eq_true_eq]
    omega

theorem rawOrderSM_invalidFirst : rawOrderSM.InvalidFirst := by
  intro a ha
  have : a.raw ≠ 0 := by simpa [SourceLocation.isValid] using ha
  simp only [rawOrderSM, SourceLocation.invalid, decide_eq_true_eq]
  omega

/-- C6, amended: for every statement tree and every ordering relation of the adapter that is
a strict total order on the positions and puts the invalid position before every valid one,
the position returned by `biggestSourceLocationInStmt` is not before the valid end position
of any node of the subtree, the root and its descendants at any depth. -/
theorem biggestSourceLocationInStmt_not_before (sm : SourceManager) (stmt : Stmt)
    (hord : sm.IsStrictTotalOrder) (hmin : sm.InvalidFirst) :
    ∀ d, d ∈ stmt.locEnds → d.isValid = true →
      sm.isBeforeInSLocAddrSpace (biggestSourceLocationInStmt sm stmt) d = false :=
  biggestSourceLocationInStmt_bound sm hord hmin stmt

/-- C6, amended, at `nestedStmt` under the order of the raw encodings: the result is 2, which
is not before the end 2 of the grandchild. -/
theorem biggestSourceLocationInStmt_not_before_witness :
    rawOrderSM.IsStrictTotalOrder ∧ rawOrderSM.InvalidFirst ∧
      (⟨2⟩ : SourceLocation) ∈ nestedStmt.locEnds ∧ SourceLocation.isValid ⟨2⟩ = true ∧
      biggestSourceLocationInStmt rawOrderSM nestedStmt = ⟨2⟩ ∧
      rawOrderSM.isBeforeInSLocAddrSpace (biggestSourceLocationInStmt rawOrderSM nestedStmt) ⟨2⟩
        = false :=
  ⟨rawOrderSM_isStrictTotalOrder, rawOrderSM_invalidFirst, by decide, by decide, by decide,
    biggestSourceLocationInStmt_not_before rawOrderSM nestedStmt
      rawOrderSM_isStrictTotalOrder rawOrderSM_invalidFirst ⟨2⟩ (by decide) (by decide)⟩

/-! ## `locForNextToken` -/

theorem locForNextToken_invalid (ci : CompilerInstance) (fuel : Nat) (start : SourceLocation)
    (kind : TokenKind) (h : start.raw = 0) :
    locForNextToken ci (fuel + 1) start kind = some SourceLocation.invalid := by
  simp [locForNextToken, SourceLocation.isValid, h]

theorem locForNextToken_fuel_succ (ci : CompilerInstance) (kind : TokenKind) :
    ∀ (fuel : Nat) (start r : SourceLocation),
      locForNextToken ci fuel start kind = some r →
        locForNextToken ci (fuel + 1) start kind = some r := by
  intro fuel
  induction fuel with
  | zero => intro start r h; simp [locForNextToken] at h
  | succ n ih =>
    intro start r h
    rw [locForNextToken] at h ⊢
    by_cases hv : (!start.isValid) = true
    · simpa [hv] using h
    · by_cases hk : ci.getRawTokenKind start = kind
      · simpa [hv, hk] using h
      · by_cases hp : (ci.getLocForEndOfToken start 0).getRawEncoding = start.getRawEncoding
        · simpa [hv, hk, hp] using h
        · simp only [hv, hk, hp, if_false] at h ⊢
          exact ih _ _ h

theorem locForNextToken_fuel_le (ci : CompilerInstance) (kind : TokenKind)
    (start r : SourceLocation) (n : Nat)
    (h : locForNextToken ci n start kind = some r) :
    ∀ fuel, n ≤ fuel → locForNextToken ci fuel start kind = some r := by
  intro fuel hle
  induction hle with
  | refl => exact h
  | step _ ih => exact locForNextToken_fuel_succ ci kind _ start r ih

theorem locForNextToken_enough (ci : CompilerInstance) (streamEnd : Nat)
    (hfin : FiniteTokenStream ci streamEnd) (kind : TokenKind) :
    ∀ (fuel : Nat) (start : SourceLocation), 2 ≤ fuel → streamEnd + 2 ≤ start.raw + fuel →
      ∃ r, locForNextToken ci fuel start kind = some r := by
  intro fuel
  induction fuel with
  | zero => intro start h; omega
  | succ n ih =>
    intro start h2 hm
    rw [locForNextToken]
    by_cases hv : (!start.isValid) = true
    · exact ⟨SourceLocation.invalid, by simp [hv]⟩
    · by_cases hk : ci.getRawTokenKind start = kind
      · exact ⟨start, by simp [hv, hk]⟩
      · by_cases hp : (ci.getLocForEndOfToken start 0).getRawEncoding = start.getRawEncoding
        · exact ⟨SourceLocation.invalid, by simp [hv, hk, hp]⟩
        · simp only [hv, hk, hp, if_false]
          simp only [SourceLocation.getRawEncoding] at hp
          rcases hfin start with h0 | ⟨hge, hle⟩
          · obtain ⟨m, rfl⟩ : ∃ m, n = m + 1 := ⟨n - 1, by omega⟩
            exact ⟨_, locForNextToken_invalid ci m _ kind h0⟩
          · exact ih _ (by omega) (by omega)

theorem locForNextToken_no_progress (ci : CompilerInstance) (fuel : Nat)
    (start : SourceLocation) (kind : TokenKind)
    (hsame : (ci.getLocForEndOfToken start 0).getRawEncoding = start.getRawEncoding) :
    locForNextToken ci (fuel + 1) start kind
      = some (if start.isValid && decide (ci.getRawTokenKind start = kind)
          then start else SourceLocation.invalid) := by
  rw [locForNextToken]
  cases hv : start.isValid <;> by_cases hk : ci.getRawTokenKind start = kind <;>
    simp [hk, hsame]

/-- C7, at a concrete input: at the end of the text `qgetenv("X").isEmpty()`, position 23,
the end-of-token has the raw encoding of the position itself and the token there is the
end-of-file token; a scan for the end-of-file token returns the valid position 23, not the
invalid position. -/
theorem locForNextToken_no_progress_returns_start :
    ((textCI qgetenvText).getLocForEndOfToken ⟨23⟩ 0).getRawEncoding
        = SourceLocation.getRawEncoding ⟨23⟩ ∧
      locForNextToken (textCI qgetenvText) 1 ⟨23⟩ TokenKind.eof = some ⟨23⟩ ∧
      SourceLocation.isValid ⟨23⟩ = true := by
  decide

theorem identLen_le (l : List Char) : identLen l ≤ l.length := by
  induction l with
  | nil => simp [identLen]
  | cons c cs ih =>
    simp only [identLen, List.length_cons]
    split <;> omega

theorem stringRestLen_le (l : List Char) : stringRestLen l ≤ l.length := by
  induction l with
  | nil => simp [stringRestLen]
  | cons c cs ih =>
    simp only [stringRestLen, List.length_cons]
    split <;> omega

theorem rawTokenLen_le (l : List Char) : rawTokenLen l ≤ l.length := by
  cases l with
  | nil => simp [rawTokenLen]
  | cons c cs =>
    have h1 := identLen_le cs
    have h2 := stringRestLen_le cs
    simp only [rawTokenLen, List.length_cons]
    split
    · omega
    · split <;> omega

theorem textCI_finiteTokenStream (text : List Char) :
    FiniteTokenStream (textCI text) (text.length + 1) := by
  intro p
  simp only [textCI]
  by_cases hinv : p.isInvalid = true
  · left; simp [hinv, SourceLocation.invalid]
  · by_cases hout : text.length + 1 < p.raw
    · left; simp [hinv, hout, SourceLocation.invalid]
    · right
      have hp : p.raw ≠ 0 := by simpa [SourceLocation.isInvalid] using hinv
      have hlen := rawTokenLen_le (text.drop (p.raw - 1))
      rw [List.length_drop] at hlen
      have hinv2 : p.isInvalid = false := by simpa using hinv
      simp only [hinv2, hout, if_false, Int.add_zero, Int.toNat_ofNat, Bool.false_eq_true]
      omega

/-- C7, amended: on every finite token stream, for every start position and every wanted
kind, `locForNextToken` returns: there is a result that every call budget from
`streamEnd + 2` on reaches, also when no token of the wanted kind exists. Whenever the
end-of-token of the current position has the raw encoding of the current position, the scan
stops at once; it returns the invalid position unless the current position is valid and its
token is of the wanted kind, in which case it returns the current position. -/
theorem locForNextToken_terminates (ci : CompilerInstance) (streamEnd : Nat)
    (start : SourceLocation) (kind : TokenKind) (hfin : FiniteTokenStream ci streamEnd) :
    (∃ r, ∀ fuel, streamEnd + 2 ≤ fuel → locForNextToken ci fuel start kind = some r) ∧
      (∀ fuel, (ci.getLocForEndOfToken start 0).getRawEncoding = start.getRawEncoding →
        locForNextToken ci (fuel + 1) start kind
          = some (if start.isValid && decide (ci.getRawTokenKind start = kind)
              then start else SourceLocation.invalid)) := by
  refine ⟨?_, fun fuel hsame => locForNextToken_no_progress ci fuel start kind hsame⟩
  obtain ⟨r, hr⟩ := locForNextToken_enough ci streamEnd hfin kind (streamEnd + 2) start
    (by omega) (by omega)
  exact ⟨r, locForNextToken_fuel_le ci kind start r _ hr⟩

/-- C7, amended, on the text `qgetenv("X").isEmpty()`, which has no semicolon: the scan for
one from the start returns, and at the end of the text, where the end-of-token does not
advance, it returns the invalid position at once. -/
theorem locForNextToken_terminates_witness :
    FiniteTokenStream (textCI qgetenvText) (qgetenvText.length + 1) ∧
      (locForNextToken (textCI qgetenvText) 25 ⟨1⟩ TokenKind.semi).isSome = true ∧
      ((textCI qgetenvText).getLocForEndOfToken ⟨23⟩ 0).getRawEncoding
        = SourceLocation.getRawEncoding ⟨23⟩ ∧
      locForNextToken (textCI qgetenvText) (0 + 1) ⟨23⟩ TokenKind.semi
        = some (if SourceLocation.isValid ⟨23⟩ &&
              decide ((textCI qgetenvText).getRawTokenKind ⟨23⟩ = TokenKind.semi)
            then ⟨23⟩ else SourceLocation.invalid) :=
  ⟨textCI_finiteTokenStream qgetenvText,
    (locForNextToken_terminates (textCI qgetenvText) (qgetenvText.length + 1) ⟨1⟩
      TokenKind.semi (textCI_finiteTokenStream qgetenvText)).1.elim
      (fun r hr => by rw [hr 25 (by decide)]; rfl),
    by decide,
    (locForNextToken_terminates (textCI qgetenvText) (qgetenvText.length + 1) ⟨23⟩
      TokenKind.semi (textCI_finiteTokenStream qgetenvText)).2 0 (by decide)⟩

/-! ## `fixItRemoveToken` -/

/-- C8: for a statement with start `s`, with `e` the end-of-token of `s` with offset 0 when
parenthesis removal is requested and -1 when it is not, `fixItRemoveToken` returns the empty
list if `s` or `e` is invalid; otherwise `Removal{(s, e)}` followed by
`Removal{(stmtEnd, stmtEnd)}` with parenthesis removal and `Removal{(s, e)}` alone without
it. With parenthesis removal the result never has length one. -/
theorem fixItRemoveToken_edits (ci : CompilerInstance) (s stmtEnd : SourceLocation)
    (cs : List Stmt) (removeParenthesis : Bool) :
    fixItRemoveToken ci (Stmt.node s stmtEnd cs) removeParenthesis
        = some
          (if s.isValid &&
              (ci.getLocForEndOfToken s (if removeParenthesis then 0 else -1)).isValid
            then
              (if removeParenthesis
                then [FixItHint.removal ⟨s, ci.getLocForEndOfToken s 0⟩,
                  FixItHint.removal ⟨stmtEnd, stmtEnd⟩]
                else [FixItHint.removal ⟨s, ci.getLocForEndOfToken s (-1)⟩])
            else []) ∧
      (fixItRemoveToken ci (Stmt.node s stmtEnd cs) true).map List.length ≠ some 1 := by
  constructor
  · cases removeParenthesis <;> simp only [fixItRemoveToken] <;>
      cases h1 : s.isValid <;> simp
    · cases h2 : (ci.getLocForEndOfToken s (-1)).isValid <;> simp
    · cases h2 : (ci.getLocForEndOfToken s 0).isValid <;> simp
  · simp only [fixItRemoveToken]
    cases h1 : s.isValid <;> cases h2 : (ci.getLocForEndOfToken s 0).isValid <;> simp [h2]

/-! ## `fixItReplaceWordWithWord` -/

theorem toInt32_sizeSub (n : Nat) (h : n < 2 ^ 31 + 2) :
    toInt32 (sizeSub n 2) = (n : Int) - 2 := by
  unfold toInt32 sizeSub
  have e32 : (2 : Nat) ^ 32 = 4294967296 := by norm_num
  have e31 : (2 : Nat) ^ 31 = 2147483648 := by norm_num
  have e64 : (2 : Nat) ^ 64 = 18446744073709551616 := by norm_num
  have i32 : (2 : Int) ^ 32 = 4294967296 := by norm_num
  rw [e31] at h
  simp only [e32, e31, e64, i32]
  split <;> omega

theorem add_toInt32_sizeSub_emod (r n : Nat) :
    ((r : Int) + toInt32 (sizeSub n 2)) % 2 ^ 32 = ((r : Int) + ((n : Int) - 2)) % 2 ^ 32 := by
  unfold toInt32 sizeSub
  have e32 : (2 : Nat) ^ 32 = 4294967296 := by norm_num
  have e31 : (2 : Nat) ^ 31 = 2147483648 := by norm_num
  have e64 : (2 : Nat) ^ 64 = 18446744073709551616 := by norm_num
  have i32 : (2 : Int) ^ 32 = 4294967296 := by norm_num
  simp only [e32, e31, e64, i32]
  split <;> omega

theorem fallbackOffset_eq (w : String) (h : w.length < 2 ^ 31 + 2) :
    fallbackOffset w = (w.length : Int) - 2 :=
  toInt32_sizeSub w.length h

theorem getLocWithOffset_fallbackOffset (s : SourceLocation) (w : String) :
    s.getLocWithOffset (fallbackOffset w) = s.getLocWithOffset ((w.length : Int) - 2) := by
  unfold SourceLocation.getLocWithOffset fallbackOffset
  rw [add_toInt32_sizeSub_emod]

/-- C9, at a concrete input: for a replaced word of 2^31 + 2 characters the offset passed
at line 191 is -2^31, not the integer `length(w) - 2 = 2^31`. -/
theorem fallbackOffset_longWord :
    longWord.length = 2147483650 ∧ fallbackOffset longWord = -2147483648 ∧
      fallbackOffset longWord ≠ (longWord.length : Int) - 2 := by
  have hlen : longWord.length = 2147483650 := by
    show (List.replicate 2147483650 'a').length = 2147483650
    exact List.length_replicate _ _
  have hoff : fallbackOffset longWord = -2147483648 := by
    unfold fallbackOffset
    rw [hlen]
    simp only [toInt32, sizeSub]
    norm_num
  refine ⟨hlen, hoff, ?_⟩
  rw [hoff, hlen]
  norm_num

/-- C9, amended: if the end-of-token of `s` with offset -1 is valid,
`fixItReplaceWordWithWord` returns `Replacement{(s, that position), replacement}` and the
fallback is not used; otherwise the end boundary is the position `s + (length(w) - 2)` in
the 32-bit position arithmetic, and the function returns `Replacement{(s, fallback),
replacement}` if that position is valid and the no-op hint if it is not. The offset passed
is the integer `length(w) - 2`, negative for the lengths 0 and 1, for every length below
2^31 + 2. -/
theorem fixItReplaceWordWithWord_boundary (ci : CompilerInstance) (s e : SourceLocation)
    (cs : List Stmt) (replacement w : String) :
    fixItReplaceWordWithWord ci (Stmt.node s e cs) replacement w
        = some
          (if (ci.getLocForEndOfToken s (-1)).isValid
            then FixItHint.replacement ⟨s, ci.getLocForEndOfToken s (-1)⟩ replacement
            else if (s.getLocWithOffset ((w.length : Int) - 2)).isValid
              then FixItHint.replacement ⟨s, s.getLocWithOffset ((w.length : Int) - 2)⟩
                replacement
              else FixItHint.null) ∧
      (w.length < 2 ^ 31 + 2 → fallbackOffset w = (w.length : Int) - 2) := by
  refine ⟨?_, fallbackOffset_eq w⟩
  simp only [fixItReplaceWordWithWord, isInvalid_eq_not_isValid,
    getLocWithOffset_fallbackOffset]
  cases h1 : (ci.getLocForEndOfToken s (-1)).isValid <;>
    cases h2 : (s.getLocWithOffset ((w.length : Int) - 2)).isValid <;> simp [h2]

/-- C9, amended, for the empty replaced word and the one-character word: the offsets are -2
and -1. -/
theorem fixItReplaceWordWithWord_boundary_witness :
    ("".length < 2 ^ 31 + 2 ∧ fallbackOffset "" = (("".length : Nat) : Int) - 2 ∧
        (("".length : Nat) : Int) - 2 = -2) ∧
      ("a".length < 2 ^ 31 + 2 ∧ fallbackOffset "a" = (("a".length : Nat) : Int) - 2 ∧
        (("a".length : Nat) : Int) - 2 = -1) :=
  ⟨⟨by decide,
      (fixItReplaceWordWithWord_boundary (constCI ⟨0⟩) ⟨5⟩ ⟨5⟩ [] "x" "").2 (by decide),
      by decide⟩,
    ⟨by decide,
      (fixItReplaceWordWithWord_boundary (constCI ⟨0⟩) ⟨5⟩ ⟨5⟩ [] "x" "a").2 (by decide),
      by decide⟩⟩

/-! ## `transformTwoCallsIntoOneV2` -/

/-- C10, at a concrete input: on `qgetenv("X").isEmpty()`, whose receiver `qgetenv("X")`
has four tokens, the replacement starts at position 8, the `(` just past the first token
`qgetenv`, and not at position 13, the `.` just past the last token of the receiver. -/
theorem transformTwoCallsIntoOneV2_after_first_token :
    transformTwoCallsIntoOneV2 (textCI qgetenvText) (some isEmptyCall) "R" []
        = some (true, [FixItHint.replacement ⟨⟨8⟩, ⟨22⟩⟩ "R"]) ∧
      isEmptyCall.implicitObjectArgument = Stmt.node ⟨1⟩ ⟨12⟩ [] ∧
      locForEndOfToken (textCI qgetenvText) ⟨1⟩ 0 = ⟨8⟩ ∧
      locForEndOfToken (textCI qgetenvText) ⟨12⟩ 0 = ⟨13⟩ ∧
      qgetenvText.get? 7 = some '(' ∧ qgetenvText.get? 12 = some '.' :=
  ⟨by decide, rfl, by decide, by decide, by decide, by decide⟩

/-- C10, amended: for a `call2` with a receiver, `transformTwoCallsIntoOneV2` takes `p`, the
end-of-token (offset 0) of the START of the receiver, that is the position just past the
first token of the receiver; if `p` and the end of `call2` are valid it returns true and
appends the one hint `Replacement{(p, end of call2), replacementText}`, and it returns false
and leaves `out` unchanged if `call2` has no receiver or one of the two positions is
invalid. -/
theorem transformTwoCallsIntoOneV2_emits (ci : CompilerInstance)
    (ls2 end2 rs re : SourceLocation) (rcs : List Stmt) (replacement : String)
    (out : List FixItHint) :
    transformTwoCallsIntoOneV2 ci (some ⟨ls2, end2, Stmt.null⟩) replacement out
        = some (false, out) ∧
      transformTwoCallsIntoOneV2 ci (some ⟨ls2, end2, Stmt.node rs re rcs⟩) replacement out
        = (if (locForEndOfToken ci rs 0).isValid && end2.isValid
            then some (true, out ++
              [FixItHint.replacement ⟨locForEndOfToken ci rs 0, end2⟩ replacement])
            else some (false, out)) := by
  refine ⟨by simp [transformTwoCallsIntoOneV2], ?_⟩
  simp only [transformTwoCallsIntoOneV2, createReplacement, SourceRange.getBegin,
    isInvalid_eq_not_isValid]
  cases h1 : (locForEndOfToken ci rs 0).isValid <;> cases h2 : end2.isValid <;> simp

/-! ## Validity of the hints of all constructors -/

theorem mem_availableChecksFrom (T : CheckLevel) (c : RegisteredCheck) :
    ∀ l : List RegisteredCheck, c ∈ availableChecksFrom T l ↔ c ∈ l ∧ c.level ≤ T := by
  intro l
  induction l with
  | nil => simp [availableChecksFrom]
  | cons d rest ih =>
    simp only [availableChecksFrom]
    by_cases hd : d.level ≤ T
    · simp only [hd, if_true, List.mem_cons, ih]
      constructor
      · rintro (h | h)
        · subst h; exact ⟨Or.inl rfl, hd⟩
        · exact ⟨Or.inr h.1, h.2⟩
      · rintro ⟨h | h, hT⟩
        · exact Or.inl h
        · exact Or.inr ⟨h, hT⟩
    · simp only [hd, if_false, List.mem_cons, ih]
      constructor
      · rintro ⟨h, hT⟩; exact ⟨Or.inr h, hT⟩
      · rintro ⟨h | h, hT⟩
        · subst h; exact absurd hT hd
        · exact ⟨h, hT⟩

theorem availableChecksFrom_sublist (T : CheckLevel) :
    ∀ l : List RegisteredCheck, List.Sublist (availableChecksFrom T l) l := by
  intro l
  induction l with
  | nil => simp [availableChecksFrom]
  | cons d rest ih =>
    simp only [availableChecksFrom]
    by_cases hd : d.level ≤ T
    · simp only [hd, if_true]; exact ih.cons₂ d
    · simp only [hd, if_false]; exact ih.cons d

theorem count_availableChecksFrom (T : CheckLevel) (c : RegisteredCheck) :
    ∀ l : List RegisteredCheck,
      (availableChecksFrom T l).count c = if c.level ≤ T then l.count c else 0 := by
  intro l
  induction l with
  | nil => simp [availableChecksFrom]
  | cons d rest ih =>
    simp only [availableChecksFrom]
    by_cases hd : d.level ≤ T
    · simp only [hd, if_true, List.count_cons, ih]
      by_cases hc : c.level ≤ T
      · simp [hc]
      · have hne : ¬ (d = c) := fun h => hc (h ▸ hd)
        simp [hc, hne]
    · simp only [hd, if_false, ih, List.count_cons]
      by_cases hc : c.level ≤ T
      · have hne : ¬ (d = c) := fun h => hd (h ▸ hc)
        simp [hc, hne]
      · simp [hc]

/-- C12: for every registry and every tier `T`, `availableChecks T` holds exactly the registered
checks whose level is at most `T`, the boundary tier `T` included and nothing above it; it
keeps the registration order (it is a sublist of the registry) and holds each check as often
as the registry does, a check registered once exactly once. `checksFromRequestedLevel` is
the same selection at the requested level. -/
theorem availableChecks_exact (m : CheckManager) (T : CheckLevel) :
    (∀ c, c ∈ m.availableChecks T ↔ c ∈ m.m_registeredChecks ∧ c.level ≤ T) ∧
      List.Sublist (m.availableChecks T) m.m_registeredChecks ∧
      (∀ c, (m.availableChecks T).count c
        = if c.level ≤ T then m.m_registeredChecks.count c else 0) ∧
      (∀ c, c ∈ m.checksFromRequestedLevel ↔
        c ∈ m.m_registeredChecks ∧ c.level ≤ m.m_requestedLevel) :=
  ⟨fun c => mem_availableChecksFrom T c m.m_registeredChecks,
    availableChecksFrom_sublist T m.m_registeredChecks,
    fun c => count_availableChecksFrom T c m.m_registeredChecks,
    fun c => mem_availableChecksFrom m.m_requestedLevel c m.m_registeredChecks⟩

/-! ## `CheckManager::checksForCommaSeparatedString` -/

theorem checkForName_some (checks : List RegisteredCheck) (name : String) (c : RegisteredCheck)
    (h : checkForName checks name = some c) : c ∈ checks ∧ c.name = name := by
  unfold checkForName at h
  refine ⟨List.mem_of_find?_eq_some h, ?_⟩
  have := List.find?_some h
  simpa using this

theorem mem_checksForEntries_fst (registered : List RegisteredCheck) (c : RegisteredCheck) :
    ∀ es : List (List Char), c ∈ (checksForEntries registered es).1 ↔
      ∃ e, e ∈ es ∧ entryExcluded e = false ∧
        checkForName registered (entryName e) = some c := by
  intro es
  induction es with
  | nil => simp [checksForEntries]
  | cons e rest ih =>
    simp only [checksForEntries, List.mem_cons]
    cases hname : checkForName registered (entryName e) with
    | none =>
      simp only [ih]
      constructor
      · rintro ⟨x, hx, hex, hfound⟩; exact ⟨x, Or.inr hx, hex, hfound⟩
      · rintro ⟨x, hx | hx, hex, hfound⟩
        · subst hx; rw [hname] at hfound; exact absurd hfound (by simp)
        · exact ⟨x, hx, hex, hfound⟩
    | some d =>
      cases hex : entryExcluded e with
      | true =>
        simp only [if_true, ih]
        constructor
        · rintro ⟨x, hx, hxe, hfound⟩; exact ⟨x, Or.inr hx, hxe, hfound⟩
        · rintro ⟨x, hx | hx, hxe, hfound⟩
          · subst hx; rw [hex] at hxe; exact absurd hxe (by simp)
          · exact ⟨x, hx, hxe, hfound⟩
      | false =>
        simp only [Bool.false_eq_true, if_false, List.mem_cons, ih]
        constructor
        · rintro (h | ⟨x, hx, hxe, hfound⟩)
          · subst h; exact ⟨e, Or.inl rfl, hex, hname⟩
          · exact ⟨x, Or.inr hx, hxe, hfound⟩
        · rintro ⟨x, hx | hx, hxe, hfound⟩
          · subst hx; rw [hname] at hfound; exact Or.inl (Option.some.inj hfound).symm
          · exact Or.inr ⟨x, hx, hxe, hfound⟩

theorem mem_checksForEntries_snd (registered : List RegisteredCheck) (n : String) :
    ∀ es : List (List Char), n ∈ (checksForEntries registered es).2 ↔
      ∃ e, e ∈ es ∧ entryName e = n ∧ checkForName registered n = none := by
  intro es
  induction es with
  | nil => simp [checksForEntries]
  | cons e rest ih =>
    simp only [checksForEntries, List.mem_cons]
    cases hname : checkForName registered (entryName e) with
    | none =>
      simp only [List.mem_cons, ih]
      constructor
      · rintro (h | ⟨x, hx, hxn, hnone⟩)
        · subst h; exact ⟨e, Or.inl rfl, rfl, hname⟩
        · exact ⟨x, Or.inr hx, hxn, hnone⟩
      · rintro ⟨x, hx | hx, hxn, hnone⟩
        · subst hx; exact Or.inl hxn.symm
        · exact Or.inr ⟨x, hx, hxn, hnone⟩
    | some d =>
      have hrest : n ∈ (checksForEntries registered rest).2 ↔
          ∃ x, (x = e ∨ x ∈ rest) ∧ entryName x = n ∧ checkForName registered n = none := by
        rw [ih]
        constructor
        · rintro ⟨x, hx, hxn, hnone⟩; exact ⟨x, Or.inr hx, hxn, hnone⟩
        · rintro ⟨x, hx | hx, hxn, hnone⟩
          · subst hx; rw [hxn, hnone] at hname; exact absurd hname (by simp)
          · exact ⟨x, hx, hxn, hnone⟩
      cases hex : entryExcluded e <;> simpa using hrest

/-- C13: for every registry and every comma-separated specification,
`checksForCommaSeparatedString` returns exactly the registered checks named by the entries
without a leading `-`, and reports exactly the names of the entries, with or without the
`-`, that match no registered check; for `foo,-bar,baz` against a registry with `foo` and
`baz` and without `bar`, the resolved list is `foo`, `baz` and `bar` is reported unknown. -/
theorem checksForCommaSeparatedString_resolves (m : CheckManager) (str : String) :
    (∀ c, c ∈ (m.checksForCommaSeparatedString str).1 ↔
        ∃ e, e ∈ splitAtCommas str.data ∧ entryExcluded e = false ∧
          checkForName m.m_registeredChecks (entryName e) = some c) ∧
      (∀ c, c ∈ (m.checksForCommaSeparatedString str).1 → c ∈ m.m_registeredChecks) ∧
      (∀ n, n ∈ (m.checksForCommaSeparatedString str).2 ↔
        ∃ e, e ∈ splitAtCommas str.data ∧ entryName e = n ∧
          checkForName m.m_registeredChecks n = none) ∧
      (splitAtCommas "foo,-bar,baz".data = ["foo".data, "-bar".data, "baz".data] ∧
        checkForName fooBazManager.m_registeredChecks "bar" = none ∧
        fooBazManager.checksForCommaSeparatedString "foo,-bar,baz"
          = ([⟨"foo", 0⟩, ⟨"baz", 1⟩], ["bar"])) := by
  refine ⟨fun c => mem_checksForEntries_fst _ c _, ?_,
    fun n => mem_checksForEntries_snd _ n _, by decide⟩
  intro c hc
  obtain ⟨e, _, _, hfound⟩ := (mem_checksForEntries_fst _ c _).mp hc
  exact (checkForName_some _ _ _ hfound).1

/-! ## The result of `locForNextToken` -/

theorem scanChain_succ_start (ci : CompilerInstance) (start : SourceLocation) :
    ∀ i, scanChain ci start (i + 1) = scanChain ci (ci.getLocForEndOfToken start 0) i := by
  intro i
  induction i with
  | zero => rfl
  | succ n ih =>
    show ci.getLocForEndOfToken (scanChain ci start (n + 1)) 0
      = ci.getLocForEndOfToken (scanChain ci (ci.getLocForEndOfToken start 0) n) 0
    rw [ih]

theorem locForNextToken_chain (ci : CompilerInstance) (kind : TokenKind) :
    ∀ (fuel : Nat) (start r : SourceLocation),
      locForNextToken ci fuel start kind = some r →
        ∃ k, (∀ i, i < k → (scanChain ci start i).isValid = true ∧
              ci.getRawTokenKind (scanChain ci start i) ≠ kind) ∧
          ((r = scanChain ci start k ∧ r.isValid = true ∧ ci.getRawTokenKind r = kind) ∨
            (r = SourceLocation.invalid ∧
              ((scanChain ci start k).isValid = false ∨
                ((scanChain ci start k).isValid = true ∧
                  ci.getRawTokenKind (scanChain ci start k) ≠ kind ∧
                  (scanChain ci start (k + 1)).getRawEncoding
                    = (scanChain ci start k).getRawEncoding)))) := by
  intro fuel
  induction fuel with
  | zero => intro start r h; simp [locForNextToken] at h
  | succ n ih =>
    intro start r h
    rw [locForNextToken] at h
    cases hv : start.isValid with
    | false =>
      simp only [hv, Bool.not_false, if_true, Option.some.injEq] at h
      exact ⟨0, fun i hi => absurd hi (Nat.not_lt_zero i), Or.inr ⟨h.symm, Or.inl hv⟩⟩
    | true =>
      simp only [hv, Bool.not_true, Bool.false_eq_true, if_false] at h
      by_cases hk : ci.getRawTokenKind start = kind
      · simp only [hk, if_true, Option.some.injEq] at h
        subst h
        exact ⟨0, fun i hi => absurd hi (Nat.not_lt_zero i), Or.inl ⟨rfl, hv, hk⟩⟩
      · simp only [hk, if_false] at h
        by_cases hp : (ci.getLocForEndOfToken start 0).getRawEncoding = start.getRawEncoding
        · simp only [hp, if_true, Option.some.injEq] at h
          exact ⟨0, fun i hi => absurd hi (Nat.not_lt_zero i),
            Or.inr ⟨h.symm, Or.inr ⟨hv, hk, hp⟩⟩⟩
        · simp only [hp, if_false] at h
          obtain ⟨k, hbefore, hat⟩ := ih _ _ h
          refine ⟨k + 1, ?_, ?_⟩
          · intro i hi
            cases i with
            | zero => exact ⟨hv, hk⟩
            | succ j =>
              rw [scanChain_succ_start]
              exact hbefore j (by omega)
          · rw [scanChain_succ_start ci start (k + 1), scanChain_succ_start ci start k]
            exact hat

/-- C14: on every frontend, whenever `locForNextToken` returns a position `r`: if `r` is
valid, it is a position of the chain `start`, `endOfToken(start)`, ... whose token has the
wanted kind, and every earlier chain position is valid with a token of another kind
(`r = start` when the token at a valid `start` matches); if `r` is invalid, the scan stopped
at a chain position that is invalid or could not advance, and no valid chain position up to
and including that point has a token of the wanted kind. For an invalid `start` the result
is invalid. The result does not depend on the call budget once it is reached, and on a
finite token stream it is reached for every start and kind. -/
theorem locForNextToken_first_match (ci : CompilerInstance) (fuel : Nat)
    (start r : SourceLocation) (kind : TokenKind)
    (hr : locForNextToken ci fuel start kind = some r) :
    (r.isValid = true →
        ∃ k, r = scanChain ci start k ∧ ci.getRawTokenKind r = kind ∧
          ∀ i, i < k → (scanChain ci start i).isValid = true ∧
            ci.getRawTokenKind (scanChain ci start i) ≠ kind) ∧
      (r.isValid = false →
        ∃ k, (∀ i, i < k → (scanChain ci start i).isValid = true ∧
              ci.getRawTokenKind (scanChain ci start i) ≠ kind) ∧
          ((scanChain ci start k).isValid = false ∨
            ((scanChain ci start k).isValid = true ∧
              ci.getRawTokenKind (scanChain ci start k) ≠ kind ∧
              (scanChain ci start (k + 1)).getRawEncoding
                = (scanChain ci start k).getRawEncoding))) ∧
      (start.isValid = true → ci.getRawTokenKind start = kind → r = start) ∧
      (start.isValid = false → r = SourceLocation.invalid) ∧
      (∀ more, fuel ≤ more → locForNextToken ci more start kind = some r) ∧
      (∀ streamEnd, FiniteTokenStream ci streamEnd →
        ∀ more, streamEnd + 2 ≤ more → locForNextToken ci more start kind = some r) ∧
      (∀ streamEnd, FiniteTokenStream ci streamEnd →
        ∀ (from_ : SourceLocation) (wanted : TokenKind),
          ∃ found, ∀ more, streamEnd + 2 ≤ more →
            locForNextToken ci more from_ wanted = some found) := by
  obtain ⟨k, hbefore, hat⟩ := locForNextToken_chain ci kind _ _ _ hr
  obtain ⟨n, rfl⟩ : ∃ n, fuel = n + 1 := by
    cases fuel with
    | zero => simp [locForNextToken] at hr
    | succ n => exact ⟨n, rfl⟩
  have hstep := hr
  refine ⟨?_, ?_, ?_, ?_, locForNextToken_fuel_le ci kind start r _ hr, ?_, ?_⟩
  rotate_right
  · intro streamEnd hfin from_ wanted
    obtain ⟨found, hfound⟩ := locForNextToken_enough ci streamEnd hfin wanted
      (streamEnd + 2) from_ (by omega) (by omega)
    exact ⟨found, locForNextToken_fuel_le ci wanted from_ found _ hfound⟩
  · intro hvalid
    rcases hat with ⟨h1, _, h3⟩ | ⟨h1, _⟩
    · exact ⟨k, h1, h3, hbefore⟩
    · rw [h1] at hvalid; exact absurd hvalid (by decide)
  · intro hinvalid
    rcases hat with ⟨_, h2, _⟩ | ⟨_, h2⟩
    · rw [h2] at hinvalid; exact absurd hinvalid (by decide)
    · exact ⟨k, hbefore, h2⟩
  · intro hv hk
    rw [locForNextToken] at hstep
    simp only [hv, Bool.not_true, Bool.false_eq_true, if_false, hk, if_true,
      Option.some.injEq] at hstep
    exact hstep.symm
  · intro hv
    rw [locForNextToken] at hstep
    simp only [hv, Bool.not_false, if_true, Option.some.injEq] at hstep
    exact hstep.symm
  · intro streamEnd hfin more hmore
    obtain ⟨r2, hr2⟩ := locForNextToken_enough ci streamEnd hfin kind (streamEnd + 2) start
      (by omega) (by omega)
    have hall := locForNextToken_fuel_le ci kind start r2 _ hr2
    have h1 : locForNextToken ci (max (n + 1) (streamEnd + 2)) start kind = some r :=
      locForNextToken_fuel_le ci kind start r _ hr _ (le_max_left _ _)
    have h2 : locForNextToken ci (max (n + 1) (streamEnd + 2)) start kind = some r2 :=
      hall _ (le_max_right _ _)
    have heq : r2 = r := by
      rw [h1] at h2; exact (Option.some.inj h2).symm
    rw [← heq]
    exact hall more hmore

/-- C14, on the text `qgetenv("X").isEmpty()` from its start: the scan for `)` returns
position 12, the fourth position of the chain 1, 8, 9, 12, and the three positions before it
hold an identifier, `(` and a string literal. -/
theorem locForNextToken_first_match_witness :
    locForNextToken (textCI qgetenvText) 4 ⟨1⟩ TokenKind.r_paren = some ⟨12⟩ ∧
      SourceLocation.isValid ⟨12⟩ = true ∧
      scanChain (textCI qgetenvText) ⟨1⟩ 3 = ⟨12⟩ ∧
      (∃ k, (⟨12⟩ : SourceLocation) = scanChain (textCI qgetenvText) ⟨1⟩ k ∧
        (textCI qgetenvText).getRawTokenKind ⟨12⟩ = TokenKind.r_paren ∧
        ∀ i, i < k → (scanChain (textCI qgetenvText) ⟨1⟩ i).isValid = true ∧
          (textCI qgetenvText).getRawTokenKind (scanChain (textCI qgetenvText) ⟨1⟩ i)
            ≠ TokenKind.r_paren) ∧
      locForNextToken (textCI qgetenvText) 25 ⟨1⟩ TokenKind.r_paren = some ⟨12⟩ :=
  ⟨by decide, by decide, by decide,
    (locForNextToken_first_match (textCI qgetenvText) 4 ⟨1⟩ ⟨12⟩ TokenKind.r_paren
      (by decide)).1 (by decide),
    (locForNextToken_first_match (textCI qgetenvText) 4 ⟨1⟩ ⟨12⟩ TokenKind.r_paren
      (by decide)).2.2.2.2.2.1 (qgetenvText.length + 1)
      (textCI_finiteTokenStream qgetenvText) 25 (by decide)⟩

/-! ## `rangeForLiteral` on a literal without tokens -/

/-- C15, at a concrete input: for a present literal without tokens the index of line 60 is
`0 - 1 = -1`, the lookup at that index is outside the literal, and `rangeForLiteral` has no
defined result: it does not return the invalid range. -/
theorem rangeForLiteral_no_tokens_lookup :
    (⟨⟨5⟩, []⟩ : StringLiteral).getNumConcatenated - 1 = -1 ∧
      (⟨⟨5⟩, []⟩ : StringLiteral).getStrTokenLoc (-1) = none ∧
      rangeForLiteral (constCI ⟨0⟩) (some ⟨⟨5⟩, []⟩) = none ∧
      rangeForLiteral (constCI ⟨0⟩) (some ⟨⟨5⟩, []⟩) ≠ some SourceRange.invalid := by
  decide

/-- C15, amended: `rangeForLiteral` has no guard for a literal without tokens: for `N = 0` it
looks up token `N - 1 = -1`, outside the literal, before any test, and no result is defined.
For `N >= 1` the index `N - 1` of the lookup is inside the literal and the lookup gives the
position of the last token. -/
theorem rangeForLiteral_lookup_index (ci : CompilerInstance) (locStart last : SourceLocation)
    (ts : List SourceLocation) :
    ((⟨locStart, []⟩ : StringLiteral).getNumConcatenated - 1 = -1 ∧
        (⟨locStart, []⟩ : StringLiteral).getStrTokenLoc
          ((⟨locStart, []⟩ : StringLiteral).getNumConcatenated - 1) = none ∧
        rangeForLiteral ci (some ⟨locStart, []⟩) = none) ∧
      ((0 : Int) ≤ (⟨locStart, ts ++ [last]⟩ : StringLiteral).getNumConcatenated - 1 ∧
        (⟨locStart, ts ++ [last]⟩ : StringLiteral).getStrTokenLoc
          ((⟨locStart, ts ++ [last]⟩ : StringLiteral).getNumConcatenated - 1) = some last) := by
  refine ⟨⟨by simp [StringLiteral.getNumConcatenated],
    by simp [StringLiteral.getNumConcatenated, StringLiteral.getStrTokenLoc],
    by simp [rangeForLiteral, StringLiteral.getNumConcatenated, StringLiteral.getStrTokenLoc]⟩,
    ?_, ?_⟩
  · simp only [StringLiteral.getNumConcatenated, List.length_append, List.length_singleton,
      Nat.cast_add, Nat.cast_one]
    omega
  · have hnonneg : (0 : Int) ≤ (ts.length : Int) + 1 - 1 := by omega
    have hidx : ((ts.length : Int) + 1 - 1).toNat = ts.length := by simp
    simp only [StringLiteral.getNumConcatenated, StringLiteral.getStrTokenLoc,
      List.length_append, List.length_singleton, Nat.cast_add, Nat.cast_one, hnonneg, if_true,
      hidx]
    simp only [List.get?_eq_getElem?, List.getElem?_append_right (Nat.le_refl _), Nat.sub_self,
      List.getElem?_cons_zero]

/-! ## The result of `biggestSourceLocationInStmt` -/

/-- C16, at a concrete input: under a strict total order of the positions that puts the
invalid position last, the statement `invalidEndStmt`, whose own end is invalid and whose
child has the valid end 5, gets the invalid position. -/
theorem biggestSourceLocationInStmt_keeps_invalid :
    invalidLastSM.IsStrictTotalOrder ∧
      (⟨5⟩ : SourceLocation) ∈ invalidEndStmt.locEnds ∧ SourceLocation.isValid ⟨5⟩ = true ∧
      biggestSourceLocationInStmt invalidLastSM invalidEndStmt = ⟨0⟩ ∧
      (biggestSourceLocationInStmt invalidLastSM invalidEndStmt).isValid = false := by
  refine ⟨invalidLastSM_isStrictTotalOrder, ?_, ?_, ?_, ?_⟩ <;> decide

mutual
theorem biggestSourceLocationInStmt_mem (sm : SourceManager) :
    ∀ stmt : Stmt, (biggestSourceLocationInStmt sm stmt).isValid = true →
      biggestSourceLocationInStmt sm stmt ∈ stmt.locEnds
  | Stmt.null, h => by
    simp [biggestSourceLocationInStmt, SourceLocation.invalid, SourceLocation.isValid] at h
  | Stmt.node _ e cs, _ => by
    simp only [biggestSourceLocationInStmt, Stmt.locEnds, List.mem_cons]
    exact biggestLocLoop_mem sm cs e
theorem biggestLocLoop_mem (sm : SourceManager) :
    ∀ (cs : List Stmt) (b : SourceLocation),
      biggestLocLoop sm cs b = b ∨ biggestLocLoop sm cs b ∈ locEndsOfList cs
  | [], b => by simp [biggestLocLoop]
  | c :: cs, b => by
    have hc := biggestSourceLocationInStmt_mem sm c
    simp only [biggestLocLoop, locEndsOfList, List.mem_append]
    generalize biggestSourceLocationInStmt sm c = cand at hc ⊢
    by_cases hadopt : (cand.isValid && sm.isBeforeInSLocAddrSpace b cand) = true
    · simp only [hadopt, if_true]
      have hv : cand.isValid = true := by
        simp only [Bool.and_eq_true] at hadopt; exact hadopt.1
      rcases biggestLocLoop_mem sm cs cand with h | h
      · rw [h]; exact Or.inr (Or.inl (hc hv))
      · exact Or.inr (Or.inr h)
    · simp only [hadopt]
      rcases biggestLocLoop_mem sm cs b with h | h
      · exact Or.inl h
      · exact Or.inr (Or.inr h)
end

mutual
theorem biggestSourceLocationInStmt_valid (sm : SourceManager) (hmin : sm.InvalidFirst) :
    ∀ stmt : Stmt, (∃ d, d ∈ stmt.locEnds ∧ d.isValid = true) →
      (biggestSourceLocationInStmt sm stmt).isValid = true
  | Stmt.null, h => by
    obtain ⟨d, hd, _⟩ := h
    simp [Stmt.locEnds] at hd
  | Stmt.node _ e cs, h => by
    obtain ⟨d, hd, hv⟩ := h
    have hloop := biggestLocLoop_valid sm hmin cs e
    simp only [biggestSourceLocationInStmt]
    simp only [Stmt.locEnds, List.mem_cons] at hd
    rcases hd with hd | hd
    · subst hd; exact hloop.1 hv
    · exact hloop.2 ⟨d, hd, hv⟩
theorem biggestLocLoop_valid (sm : SourceManager) (hmin : sm.InvalidFirst) :
    ∀ (cs : List Stmt) (b : SourceLocation),
      (b.isValid = true → (biggestLocLoop sm cs b).isValid = true) ∧
        ((∃ d, d ∈ locEndsOfList cs ∧ d.isValid = true) →
          (biggestLocLoop sm cs b).isValid = true)
  | [], b => by
    simp [biggestLocLoop, locEndsOfList]
  | c :: cs, b => by
    have hc := biggestSourceLocationInStmt_valid sm hmin c
    simp only [biggestLocLoop, locEndsOfList, List.mem_append]
    generalize biggestSourceLocationInStmt sm c = cand at hc ⊢
    have hkeep : b.isValid = true →
        (biggestLocLoop sm cs
          (if (cand.isValid && sm.isBeforeInSLocAddrSpace b cand) = true then cand
            else b)).isValid = true := by
      intro hb
      by_cases hadopt : (cand.isValid && sm.isBeforeInSLocAddrSpace b cand) = true
      · simp only [hadopt, if_true]
        simp only [Bool.and_eq_true] at hadopt
        exact (biggestLocLoop_valid sm hmin cs cand).1 hadopt.1
      · simp only [hadopt]
        exact (biggestLocLoop_valid sm hmin cs b).1 hb
    refine ⟨hkeep, ?_⟩
    rintro ⟨d, hd | hd, hv⟩
    · cases hb : b.isValid with
      | true => exact hkeep hb
      | false =>
        have hbinv : b = SourceLocation.invalid := by
          cases b with
          | mk r =>
            have : r = 0 := by simpa [SourceLocation.isValid] using hb
            subst this; rfl
        have hcv : cand.isValid = true := hc ⟨d, hd, hv⟩
        have hbefore : sm.isBeforeInSLocAddrSpace b cand = true := by
          rw [hbinv]; exact hmin cand hcv
        simp only [hcv, hbefore, Bool.and_self, if_true]
        exact (biggestLocLoop_valid sm hmin cs cand).1 hcv
    · by_cases hadopt : (cand.isValid && sm.isBeforeInSLocAddrSpace b cand) = true
      · simp only [hadopt, if_true]
        exact (biggestLocLoop_valid sm hmin cs cand).2 ⟨d, hd, hv⟩
      · simp only [hadopt]
        exact (biggestLocLoop_valid sm hmin cs b).2 ⟨d, hd, hv⟩
end

theorem biggestLocLoop_valid_of_valid (sm : SourceManager) :
    ∀ (cs : List Stmt) (b : SourceLocation), b.isValid = true →
      (biggestLocLoop sm cs b).isValid = true := by
  intro cs
  induction cs with
  | nil => intro b hb; simpa [biggestLocLoop] using hb
  | cons c cs ih =>
    intro b hb
    simp only [biggestLocLoop]
    by_cases hadopt : ((biggestSourceLocationInStmt sm c).isValid &&
        sm.isBeforeInSLocAddrSpace b (biggestSourceLocationInStmt sm c)) = true
    · simp only [hadopt, if_true]
      simp only [Bool.and_eq_true] at hadopt
      exact ih _ hadopt.1
    · simp only [hadopt]
      exact ih _ hb

/-- C16, amended: for every statement node, the position `biggestSourceLocationInStmt` returns
is the end position of a node of the subtree, the root or a descendant; when the root's own
end is valid the result is valid, under every ordering; when the ordering puts the invalid
position before every valid one, the result is valid as soon as one node of the subtree has
a valid end, also when the root's own end is invalid. For a null statement the result is
invalid. -/
theorem biggestSourceLocationInStmt_node_end (sm : SourceManager) (locStart locEnd : SourceLocation)
    (children : List Stmt) :
    biggestSourceLocationInStmt sm (Stmt.node locStart locEnd children)
        ∈ (Stmt.node locStart locEnd children).locEnds ∧
      (locEnd.isValid = true →
        (biggestSourceLocationInStmt sm (Stmt.node locStart locEnd children)).isValid = true) ∧
      (sm.InvalidFirst →
        (∃ d, d ∈ (Stmt.node locStart locEnd children).locEnds ∧ d.isValid = true) →
        (biggestSourceLocationInStmt sm (Stmt.node locStart locEnd children)).isValid = true) ∧
      biggestSourceLocationInStmt sm Stmt.null = SourceLocation.invalid ∧
      SourceLocation.invalid.isValid = false := by
  refine ⟨?_, ?_, ?_, rfl, by decide⟩
  · simp only [biggestSourceLocationInStmt, Stmt.locEnds, List.mem_cons]
    exact biggestLocLoop_mem sm children locEnd
  · intro hv
    simp only [biggestSourceLocationInStmt]
    exact biggestLocLoop_valid_of_valid sm children locEnd hv
  · intro hmin hex
    exact biggestSourceLocationInStmt_valid sm hmin _ hex

/-- C16, amended, on `invalidEndStmt` under the order of the raw encodings: the result is the
valid end 5 of the child. -/
theorem biggestSourceLocationInStmt_node_end_witness :
    rawOrderSM.InvalidFirst ∧
      ((⟨5⟩ : SourceLocation) ∈ (Stmt.node ⟨1⟩ ⟨0⟩ [Stmt.node ⟨1⟩ ⟨5⟩ []]).locEnds ∧
        SourceLocation.isValid ⟨5⟩ = true) ∧
      biggestSourceLocationInStmt rawOrderSM (Stmt.node ⟨1⟩ ⟨0⟩ [Stmt.node ⟨1⟩ ⟨5⟩ []]) = ⟨5⟩ ∧
      (biggestSourceLocationInStmt rawOrderSM
        (Stmt.node ⟨1⟩ ⟨0⟩ [Stmt.node ⟨1⟩ ⟨5⟩ []])).isValid = true :=
  ⟨rawOrderSM_invalidFirst, ⟨by decide, by decide⟩, by decide,
    (biggestSourceLocationInStmt_node_end rawOrderSM ⟨1⟩ ⟨0⟩ [Stmt.node ⟨1⟩ ⟨5⟩ []]).2.2.1
      rawOrderSM_invalidFirst ⟨⟨5⟩, by decide, by decide⟩⟩

/-! ## `insertParentMethodCallAroundStringLiteral` -/

theorem rangeForLiteral_snoc (ci : CompilerInstance) (locStart last : SourceLocation)
    (ts : List SourceLocation) :
    rangeForLiteral ci (some ⟨locStart, ts ++ [last]⟩)
      = some (if last.isValid && (ci.getLocForEndOfToken last 0).isValid
          then ⟨locStart, ci.getLocForEndOfToken last 0⟩ else SourceRange.invalid) := by
  have hidx : ((ts.length : Int) + 1 - 1).toNat = ts.length := by simp
  have hnonneg : (0 : Int) ≤ (ts.length : Int) + 1 - 1 := by omega
  simp only [rangeForLiteral, StringLiteral.getNumConcatenated, StringLiteral.getStrTokenLoc,
    List.length_append, List.length_singleton, Nat.cast_add, Nat.cast_one,
    isInvalid_eq_not_isValid, hnonneg, if_true, hidx]
  simp only [List.get?_eq_getElem?, List.getElem?_append_right (Nat.le_refl _), Nat.sub_self,
    List.getElem?_cons_zero]
  cases h1 : last.isValid <;> cases h2 : (ci.getLocForEndOfToken last 0).isValid <;> simp

/-- C17, at a concrete input: for a present literal without tokens, the range computation of
line 91 looks up a token outside the literal and the call has no defined result: it returns
neither false with `out` unchanged nor true. -/
theorem insertParentMethodCallAroundStringLiteral_no_tokens :
    insertParentMethodCallAroundStringLiteral (constCI ⟨0⟩) "m" (some ⟨⟨5⟩, []⟩) [] = none ∧
      insertParentMethodCallAroundStringLiteral (constCI ⟨0⟩) "m" (some ⟨⟨5⟩, []⟩) []
        ≠ some (false, []) := by
  decide

/-- C17, amended: for a null literal `insertParentMethodCallAroundStringLiteral` returns false
and leaves `out` unchanged. For a present literal for which `rangeForLiteral` computes a
range, as it does for every literal of at least one token, it returns false and leaves `out`
unchanged if that range is invalid (either end invalid), and otherwise returns true with
`out` followed by exactly the two insertions `insertParentMethodCall` emits for the range,
`Insertion{range.end, ")"}` and `Insertion{range.begin, method + "("}`. -/
theorem insertParentMethodCallAroundStringLiteral_result (ci : CompilerInstance)
    (method : String) (lt : StringLiteral) (range : SourceRange) (out : List FixItHint)
    (hrange : rangeForLiteral ci (some lt) = some range) :
    insertParentMethodCallAroundStringLiteral ci method none out = some (false, out) ∧
      (range.isInvalid = true →
        insertParentMethodCallAroundStringLiteral ci method (some lt) out
          = some (false, out)) ∧
      (range.isInvalid = false →
        insertParentMethodCallAroundStringLiteral ci method (some lt) out
            = some (true, insertParentMethodCall method range out) ∧
          insertParentMethodCall method range out
            = out ++ [FixItHint.insertion range.getEnd ")",
                FixItHint.insertion range.getBegin (method.push '(')]) ∧
      (∀ (locStart last : SourceLocation) (ts : List SourceLocation),
        ∃ r, rangeForLiteral ci (some ⟨locStart, ts ++ [last]⟩) = some r) := by
  refine ⟨rfl, ?_, ?_, fun locStart last ts => ⟨_, rangeForLiteral_snoc ci locStart last ts⟩⟩
  · intro hinv
    simp [insertParentMethodCallAroundStringLiteral, hrange, hinv]
  · intro hval
    refine ⟨by simp [insertParentMethodCallAroundStringLiteral, hrange, hval], ?_⟩
    have hv : range.b.isValid = true ∧ range.e.isValid = true := by
      simpa [SourceRange.isInvalid, SourceRange.isValid] using hval
    simp [insertParentMethodCall, createInsertion, SourceRange.getEnd, SourceRange.getBegin,
      isInvalid_eq_not_isValid, hv.1, hv.2]

/-- C17, amended, on the literal `"X"` of `qgetenv("X").isEmpty()`, at position 9: its range is
`(9, 12)` and the call returns true with the two insertions. -/
theorem insertParentMethodCallAroundStringLiteral_result_witness :
    rangeForLiteral (textCI qgetenvText) (some ⟨⟨9⟩, [⟨9⟩]⟩) = some ⟨⟨9⟩, ⟨12⟩⟩ ∧
      SourceRange.isInvalid ⟨⟨9⟩, ⟨12⟩⟩ = false ∧
      insertParentMethodCallAroundStringLiteral (textCI qgetenvText) "isEmpty"
          (some ⟨⟨9⟩, [⟨9⟩]⟩) []
        = some (true, insertParentMethodCall "isEmpty" ⟨⟨9⟩, ⟨12⟩⟩ []) ∧
      insertParentMethodCall "isEmpty" ⟨⟨9⟩, ⟨12⟩⟩ []
        = [] ++ [FixItHint.insertion (SourceRange.getEnd ⟨⟨9⟩, ⟨12⟩⟩) ")",
            FixItHint.insertion (SourceRange.getBegin ⟨⟨9⟩, ⟨12⟩⟩) ("isEmpty".push '(')] :=
  ⟨by decide, by decide,
    ((insertParentMethodCallAroundStringLiteral_result (textCI qgetenvText) "isEmpty"
      ⟨⟨9⟩, [⟨9⟩]⟩ ⟨⟨9⟩, ⟨12⟩⟩ [] (by decide)).2.2.1 (by decide)).1,
    ((insertParentMethodCallAroundStringLiteral_result (textCI qgetenvText) "isEmpty"
      ⟨⟨9⟩, [⟨9⟩]⟩ ⟨⟨9⟩, ⟨12⟩⟩ [] (by decide)).2.2.1 (by decide)).2⟩

end FixItUtils
